import Mathlib

/-!
Verification of the legal-document processing pipeline
(rule-based cleaner, LLM-correction validator, chunker, rough splitter,
assembler) against its specification.

Text is modelled as `List Char` (Python `str` code points).  Regular
expressions from the source are embedded as explicit scanning functions with
the same leftmost, non-overlapping, greedy-with-backtracking semantics on the
character classes the pipeline uses.  Ratio comparisons that the source does
on floats are embedded as exact rational comparisons (`a/b > 3/5` iff
`5*a > 3*b`), which agrees with the float computation for every realizable
text length.
-/

namespace LegalPipeline

/-- Text as a list of code points (Python `str`). -/
abbrev Str := List Char

/-- Python whitespace (`\s`, `str.strip`): the ASCII whitespace characters.
Unicode spaces such as NBSP are normalized away by `CHAR_REPLACEMENTS`
before any of the scanning below runs. -/
def isSpaceChar (c : Char) : Bool :=
  c = ' ' || c = '\t' || c = '\n' || c = '\r' || c = '\x0b' || c = '\x0c'

/-- Python `str.strip()` from the right. -/
def stripEnd (s : Str) : Str := (s.reverse.dropWhile isSpaceChar).reverse

/-- Python `str.strip()`: drop whitespace from both ends. -/
def strip (s : Str) : Str := stripEnd (s.dropWhile isSpaceChar)

/-- Case folding as performed by `re.IGNORECASE` on the character sets this
pipeline works with: ASCII letters and the Latin-1 letters `À`-`Þ`
(excluding `×`). -/
def lowerChar (c : Char) : Char :=
  if 'A' ≤ c && c ≤ 'Z' then Char.ofNat (c.toNat + 32)
  else if 0xC0 ≤ c.toNat && c.toNat ≤ 0xDE && c.toNat ≠ 0xD7 then Char.ofNat (c.toNat + 32)
  else c

/-- Match a literal (given in lowercase) case-insensitively at the head of
`s`; return the rest of `s` on success. -/
def matchLitCI : Str → Str → Option Str
  | [], s => some s
  | _ :: _, [] => none
  | p :: ps, c :: cs => if lowerChar c = lowerChar p then matchLitCI ps cs else none

/-- Match a literal case-sensitively at the head of `s`. -/
def matchLitCS : Str → Str → Option Str
  | [], s => some s
  | _ :: _, [] => none
  | p :: ps, c :: cs => if c = p then matchLitCS ps cs else none

/-- Count the matches of a (never empty-matching) matcher, scanning left to
right and continuing after each match, exactly like `re.findall`.  The fuel
is one unit per scan step; `fuel = s.length` always suffices because each
step consumes at least one character. -/
def countMatchesGo (m : Str → Option Str) : Nat → Str → Nat
  | 0, _ => 0
  | _, [] => 0
  | fuel + 1, c :: cs =>
    match m (c :: cs) with
    | some rest => 1 + countMatchesGo m fuel rest
    | none => countMatchesGo m fuel cs

/-- One match attempt for `r"Article\s+\d+"` (IGNORECASE) at the head of `s`:
the literal, then at least one whitespace, then at least one digit (greedy,
no backtracking needed since the classes are disjoint). -/
def matchArticleNumCI (s : Str) : Option Str :=
  (matchLitCI "article".data s).bind fun s1 =>
    let sp := s1.takeWhile isSpaceChar
    if sp.length = 0 then none
    else
      let s2 := s1.drop sp.length
      let ds := s2.takeWhile Char.isDigit
      if ds.length = 0 then none else some (s2.drop ds.length)

/-- `len(re.findall(r"Article\s+\d+", s, IGNORECASE))`. -/
def countArticleNum (s : Str) : Nat := countMatchesGo matchArticleNumCI s.length s

/-- One match attempt for `r"Article\s+premier"` (IGNORECASE). -/
def matchArticlePremierCI (s : Str) : Option Str :=
  (matchLitCI "article".data s).bind fun s1 =>
    let sp := s1.takeWhile isSpaceChar
    if sp.length = 0 then none
    else matchLitCI "premier".data (s1.drop sp.length)

/-- `len(re.findall(r"Article\s+premier", s, IGNORECASE))`. -/
def countArticlePremier (s : Str) : Nat :=
  countMatchesGo matchArticlePremierCI s.length s

/-- `len(re.findall(r"CHAPITRE", s, IGNORECASE))`. -/
def countChapitre (s : Str) : Nat :=
  countMatchesGo (matchLitCI "chapitre".data) s.length s

/-- `len(re.findall(r"SECTION", s, IGNORECASE))`. -/
def countSectionWord (s : Str) : Nat :=
  countMatchesGo (matchLitCI "section".data) s.length s

/-- The four `legal_markers` match counts of `_validate_correction`, in the
order the source checks them: `Article\s+\d+`, `Article\s+premier`,
`CHAPITRE`, `SECTION`. -/
def markerCounts (s : Str) : List Nat :=
  [countArticleNum s, countArticlePremier s, countChapitre s, countSectionWord s]

/-- One match attempt for `r"Article\s+(\d+)"` (case-sensitive), returning
the captured digit group and the rest. -/
def matchArticleDigitsCS (s : Str) : Option (Str × Str) :=
  (matchLitCS "Article".data s).bind fun s1 =>
    let sp := s1.takeWhile isSpaceChar
    if sp.length = 0 then none
    else
      let s2 := s1.drop sp.length
      let ds := s2.takeWhile Char.isDigit
      if ds.length = 0 then none else some (ds, s2.drop ds.length)

/-- Scanner for `re.findall(r"Article\s+(\d+)", s)`: the ordered captured
digit groups. -/
def articleNumbersGo : Nat → Str → List Str
  | 0, _ => []
  | _, [] => []
  | fuel + 1, c :: cs =>
    match matchArticleDigitsCS (c :: cs) with
    | some (ds, rest) => ds :: articleNumbersGo fuel rest
    | none => articleNumbersGo fuel cs

/-- `re.findall(r"Article\s+(\d+)", s)`: the ordered article numbers. -/
def articleNumbers (s : Str) : List Str := articleNumbersGo s.length s

/-- Case-insensitive prefix test (`re.search` of a `^`-anchored pattern). -/
def startsWithCI (p : Str) (s : Str) : Bool := (matchLitCI p s).isSome

/-- Case-insensitive substring scanner for `re.search` of an unanchored
literal. -/
def containsCIGo (p : Str) : Nat → Str → Bool
  | 0, _ => false
  | _, [] => false
  | fuel + 1, c :: cs => startsWithCI p (c :: cs) || containsCIGo p fuel cs

/-- Case-insensitive substring test (`re.search` of an unanchored literal,
with a nonempty pattern). -/
def containsCI (p : Str) (s : Str) : Bool := containsCIGo p s.length s

/-- Check 3 of `_validate_correction`: the `hallucination_patterns` list.
Each alternation of anchored/unanchored literals is embedded as a
prefix/substring test over its alternatives. -/
def hallucinationDetected (s : Str) : Bool :=
  (["here", "voici", "the corrected", "le texte corrigé", "i have", "j\x27ai"].any
      fun p => startsWithCI p.data s) ||
  (["note:", "nb:", "explanation:", "remarque:"].any fun p => containsCI p.data s) ||
  (["i corrected", "i fixed", "i changed", "j\x27ai corrigé", "j\x27ai modifié"].any
      fun p => containsCI p.data s) ||
  (["okay", "let me", "let\x27s", "i need", "first", "hmm", "wait", "alright", "sure"].any
      fun p => startsWithCI p.data s) ||
  (["ocr error", "ocr correction", "the original", "l\x27original"].any
      fun p => containsCI p.data s)

/-- The validator's outcome: the source returns a dict
`accepted/reason`; the reason string is embedded as a structured
constructor carrying the data interpolated into it. -/
inductive Verdict where
  | accepted
  | rejectedLength (origLen corrLen : Nat)
  | rejectedMarker (patternIdx origCount corrCount : Nat)
  | rejectedNumbers (origNums corrNums : List Str)
  | rejectedCommentary
deriving DecidableEq

/-- Whether an outcome is an acceptance. -/
def Verdict.isAccepted : Verdict → Bool
  | .accepted => true
  | _ => false

/-- Whether an outcome is a marker-count or article-number rejection (a
reason that carries the specific pattern/counts). -/
def Verdict.isMarkerReason : Verdict → Bool
  | .rejectedMarker _ _ _ => true
  | .rejectedNumbers _ _ => true
  | _ => false

/-- First index at which two equal-length count lists differ, with both
counts (the loop over `legal_markers` in `_validate_correction`). -/
def firstMismatch : Nat → List Nat → List Nat → Option (Nat × Nat × Nat)
  | _, [], _ => none
  | _, _ :: _, [] => none
  | i, x :: xs, y :: ys => if x ≠ y then some (i, x, y) else firstMismatch (i + 1) xs ys

/-- `LLMCleaner._validate_correction` (src/cleaners/llm_cleaner.py:384-456):
strip both texts; accept an empty original outright; then the three ordered
checks: length delta (threshold `max_length_change = 0.50`, embedded as the
exact comparison `2*|L-C| > max(L,1)`), legal-marker counts plus the ordered
article-number sequence, and commentary detection. -/
def validateCorrection (original corrected : Str) : Verdict :=
  let oc := strip original
  let cc := strip corrected
  if oc.length = 0 then .accepted
  else if 2 * (max oc.length cc.length - min oc.length cc.length) > max oc.length 1 then
    .rejectedLength oc.length cc.length
  else
    match firstMismatch 0 (markerCounts oc) (markerCounts cc) with
    | some (i, a, b) => .rejectedMarker i a b
    | none =>
      if articleNumbers oc ≠ articleNumbers cc then
        .rejectedNumbers (articleNumbers oc) (articleNumbers cc)
      else if hallucinationDetected cc then .rejectedCommentary
      else .accepted

/-- Helper: `firstMismatch` returns `none` exactly on equal lists (for
equal-length inputs). -/
theorem firstMismatch_none_iff (xs ys : List Nat) (h : xs.length = ys.length) :
    ∀ i, firstMismatch i xs ys = none ↔ xs = ys := by
  induction xs generalizing ys with
  | nil => cases ys with
    | nil => intro i; simp [firstMismatch]
    | cons y ys => simp at h
  | cons x xs ih =>
    cases ys with
    | nil => simp at h
    | cons y ys =>
      intro i
      simp only [firstMismatch]
      by_cases hxy : x = y
      · simp only [hxy, ne_eq, not_true_eq_false, if_neg, ite_eq_right_iff]
        rw [if_neg (by simp)]
        rw [ih ys (by simpa using h) (i + 1)]
        simp [hxy]
      · rw [if_pos (by simpa using hxy)]
        simp [hxy]

/-- C1 (counterexample): the claim demands rejection whenever
`|len(original)-len(corrected)| / max(len(original),1) > 0.50` regardless of
content, but for `original = ""`, `corrected = "abcdef"` the ratio is
`6 > 0.50` (with raw or trimmed lengths alike) and the validator still
accepts, because the empty-original short-circuit fires first. -/
theorem C1_counterexample :
    validateCorrection "".data "abcdef".data = Verdict.accepted ∧
    2 * (max ("".data : Str).length ("abcdef".data : Str).length
          - min ("".data : Str).length ("abcdef".data : Str).length)
      > max ("".data : Str).length 1 := by
  constructor
  · rfl
  · decide

/-- C1 (amended): with lengths measured on the whitespace-trimmed texts, a
pair whose trimmed original is empty is always accepted as a no-op, and
whenever the trimmed original is nonempty and
`|L - C| / max(L, 1) > 0.50` (for trimmed lengths `L`, `C`) the outcome is
rejected, regardless of content. -/
theorem C1_length_guard (original corrected : Str) :
    ((strip original).length = 0 →
      validateCorrection original corrected = Verdict.accepted) ∧
    ((strip original).length ≠ 0 →
      2 * (max (strip original).length (strip corrected).length
            - min (strip original).length (strip corrected).length)
          > max (strip original).length 1 →
      (validateCorrection original corrected).isAccepted = false) := by
  constructor
  · intro h
    unfold validateCorrection
    simp [h]
  · intro h1 h2
    unfold validateCorrection
    rw [if_neg h1, if_pos h2]
    rfl

/-- C1 (witness): the amended theorem applied at concrete inputs — a
whitespace-only original is accepted against any correction, and a 10-to-2
character shrink (ratio 0.8) is rejected. -/
theorem C1_length_guard_witness :
    validateCorrection "   ".data "xyz".data = Verdict.accepted ∧
    (validateCorrection "abcdefghij".data "ab".data).isAccepted = false :=
  ⟨(C1_length_guard "   ".data "xyz".data).1 (by decide),
   (C1_length_guard "abcdefghij".data "ab".data).2 (by decide) (by decide)⟩

/-- C2: a pair that passes the length-delta check but disagrees on any of
the four structural-marker match counts, or on the ordered article-number
sequence, is rejected, and the rejection reason is specifically a
marker-count or number-sequence reason (carrying the pattern index and both
counts, resp. both sequences). -/
theorem C2_marker_preservation (original corrected : Str) :
    ¬ (2 * (max (strip original).length (strip corrected).length
            - min (strip original).length (strip corrected).length)
         > max (strip original).length 1) →
    (markerCounts (strip original) ≠ markerCounts (strip corrected) ∨
      articleNumbers (strip original) ≠ articleNumbers (strip corrected)) →
    (validateCorrection original corrected).isAccepted = false ∧
    (validateCorrection original corrected).isMarkerReason = true := by
  intro hlen hdiff
  by_cases h0 : (strip original).length = 0
  · -- With an empty trimmed original, passing the length check forces the
    -- trimmed correction to be empty as well, so nothing can differ.
    exfalso
    have hc : (strip corrected).length = 0 := by
      rcases Nat.eq_zero_or_pos (strip corrected).length with h | h
      · exact h
      · exfalso
        apply hlen
        simp [h0]
        omega
    have ho' : strip original = [] := List.length_eq_zero.mp h0
    have hc' : strip corrected = [] := List.length_eq_zero.mp hc
    rw [ho', hc'] at hdiff
    rcases hdiff with h | h <;> exact h rfl
  · unfold validateCorrection
    rw [if_neg h0, if_neg hlen]
    rcases hm : firstMismatch 0 (markerCounts (strip original)) (markerCounts (strip corrected))
      with _ | ⟨i, a, b⟩
    · have heq : markerCounts (strip original) = markerCounts (strip corrected) :=
        (firstMismatch_none_iff _ _ (by simp [markerCounts]) 0).mp hm
      have hnum : articleNumbers (strip original) ≠ articleNumbers (strip corrected) := by
        rcases hdiff with h | h
        · exact absurd heq h
        · exact h
      rw [if_pos hnum]
      exact ⟨rfl, rfl⟩
    · exact ⟨rfl, rfl⟩

/-- C2 (witness): an original containing two occurrences of `Article 3`
corrected to a text with a single occurrence passes the length check yet is
rejected with a count-mismatch reason. -/
theorem C2_marker_preservation_witness :
    (validateCorrection "Article 3.- x Article 3.- y".data "Article 3.- xy".data).isAccepted
        = false ∧
    (validateCorrection "Article 3.- x Article 3.- y".data "Article 3.- xy".data).isMarkerReason
        = true :=
  C2_marker_preservation "Article 3.- x Article 3.- y".data "Article 3.- xy".data
    (by decide) (by decide)

/-! ## Whitespace-normalized token model

The chunker contract is round-tripping up to whitespace normalization; the
token list (maximal runs of non-whitespace characters, in order) is the
normal form. -/

/-- Flush a (reversed) in-progress token. -/
def flushAcc (acc : Str) : List Str := if acc = [] then [] else [acc.reverse]

/-- Token splitter worker; `acc` is the reversed token in progress. -/
def tokensAux : Str → Str → List Str
  | acc, [] => flushAcc acc
  | acc, c :: cs =>
    if isSpaceChar c then flushAcc acc ++ tokensAux [] cs
    else tokensAux (c :: acc) cs

/-- The whitespace-separated tokens of a text, in order. -/
def tokens (s : Str) : List Str := tokensAux [] s

@[simp] theorem tokens_nil : tokens ([] : Str) = [] := rfl

/-- Tokens concatenate across any single whitespace character. -/
theorem tokensAux_ws_split (a : Str) (c : Char) (hc : isSpaceChar c = true) :
    ∀ (acc b : Str),
      tokensAux acc (a ++ c :: b) = tokensAux acc a ++ tokensAux [] b := by
  induction a with
  | nil =>
    intro acc b
    simp only [List.nil_append, tokensAux, hc, if_pos]
  | cons x a ih =>
    intro acc b
    by_cases hx : isSpaceChar x
    · have h1 : tokensAux acc ((x :: a) ++ c :: b) = flushAcc acc ++ tokensAux [] (a ++ c :: b) := by
        simp [tokensAux, hx]
      have h2 : tokensAux acc (x :: a) = flushAcc acc ++ tokensAux [] a := by
        simp [tokensAux, hx]
      rw [h1, h2, ih, List.append_assoc]
    · have h1 : tokensAux acc ((x :: a) ++ c :: b) = tokensAux (x :: acc) (a ++ c :: b) := by
        simp [tokensAux, hx]
      have h2 : tokensAux acc (x :: a) = tokensAux (x :: acc) a := by
        simp [tokensAux, hx]
      rw [h1, h2, ih]

/-- Tokens of an all-whitespace prefix vanish. -/
theorem tokens_ws_front (w b : Str) (hw : ∀ c ∈ w, isSpaceChar c = true) :
    tokens (w ++ b) = tokens b := by
  induction w with
  | nil => rfl
  | cons c w ih =>
    have hc : isSpaceChar c = true := hw c (by simp)
    have h1 : tokens ((c :: w) ++ b) = tokensAux [] (w ++ b) := by
      simp [tokens, tokensAux, hc, flushAcc]
    rw [h1]
    exact ih fun x hx => hw x (by simp [hx])

/-- An all-whitespace text has no tokens. -/
theorem tokens_all_ws (w : Str) (hw : ∀ c ∈ w, isSpaceChar c = true) : tokens w = [] := by
  have h := tokens_ws_front w [] hw
  simpa using h

/-- Tokens concatenate across a nonempty all-whitespace separator. -/
theorem tokens_append_sep (a w b : Str) (hne : w ≠ [])
    (hw : ∀ c ∈ w, isSpaceChar c = true) :
    tokens (a ++ w ++ b) = tokens a ++ tokens b := by
  cases w with
  | nil => exact absurd rfl hne
  | cons c w' =>
    have hc := hw c (by simp)
    have hassoc : a ++ (c :: w') ++ b = a ++ c :: (w' ++ b) := by simp
    rw [hassoc]
    rw [show tokens (a ++ c :: (w' ++ b)) = tokens a ++ tokens (w' ++ b) from
      tokensAux_ws_split a c hc [] (w' ++ b)]
    rw [tokens_ws_front w' b fun x hx => hw x (by simp [hx])]

/-- Tokens ignore an all-whitespace suffix. -/
theorem tokens_ws_suffix (a w : Str) (hw : ∀ c ∈ w, isSpaceChar c = true) :
    tokens (a ++ w) = tokens a := by
  cases w with
  | nil => simp
  | cons c w' =>
    have hc := hw c (by simp)
    rw [show tokens (a ++ c :: w') = tokens a ++ tokens w' from
      tokensAux_ws_split a c hc [] w']
    rw [tokens_all_ws w' fun x hx => hw x (by simp [hx]), List.append_nil]

/-- Dropping a whitespace prefix does not change the tokens. -/
theorem tokens_dropWhile_ws (s : Str) : tokens (s.dropWhile isSpaceChar) = tokens s := by
  conv_rhs => rw [← List.takeWhile_append_dropWhile (p := isSpaceChar) (l := s)]
  rw [tokens_ws_front _ _ fun c hc => List.mem_takeWhile_imp hc]

/-- Right-stripping does not change the tokens. -/
theorem tokens_stripEnd (s : Str) : tokens (stripEnd s) = tokens s := by
  have h : (s.reverse.dropWhile isSpaceChar).reverse
      ++ (s.reverse.takeWhile isSpaceChar).reverse = s := by
    rw [← List.reverse_append, List.takeWhile_append_dropWhile, List.reverse_reverse]
  have hw : ∀ c ∈ (s.reverse.takeWhile isSpaceChar).reverse, isSpaceChar c = true :=
    fun c hc => List.mem_takeWhile_imp (List.mem_reverse.mp hc)
  calc tokens (stripEnd s)
      = tokens (stripEnd s ++ (s.reverse.takeWhile isSpaceChar).reverse) :=
        (tokens_ws_suffix _ _ hw).symm
    _ = tokens s := by
        rw [show stripEnd s = (s.reverse.dropWhile isSpaceChar).reverse from rfl, h]

/-- Stripping does not change the tokens. -/
theorem tokens_strip (s : Str) : tokens (strip s) = tokens s := by
  unfold strip
  rw [tokens_stripEnd, tokens_dropWhile_ws]

/-- A text whose strip is empty has no tokens. -/
theorem tokens_of_strip_nil (s : Str) (h : strip s = []) : tokens s = [] := by
  rw [← tokens_strip s, h]; rfl

/-! ## Chunker (`LLMCleaner._split_into_chunks`, src/cleaners/llm_cleaner.py:283-334) -/

/-- Index of the last newline in a list, if any. -/
def lastIdxNl : Str → Option Nat
  | [] => none
  | c :: cs =>
    match lastIdxNl cs with
    | some k => some (k + 1)
    | none => if c = '\n' then some 0 else none

theorem lastIdxNl_lt (l : Str) (k : Nat) (h : lastIdxNl l = some k) : k < l.length := by
  induction l generalizing k with
  | nil => simp [lastIdxNl] at h
  | cons c cs ih =>
    simp only [lastIdxNl] at h
    rcases hm : lastIdxNl cs with _ | k'
    · rw [hm] at h
      by_cases hc : c = '\n'
      · rw [if_pos hc] at h
        injection h with h
        subst h
        simp
      · rw [if_neg hc] at h
        cases h
    · rw [hm] at h
      injection h with h
      subst h
      have := ih k' hm
      simp only [List.length_cons]
      omega

/-- A match of the paragraph separator `r"\n\s*\n"` at the head of the text:
a newline, then greedily as much whitespace as still leaves a final newline
(i.e. up to the last newline of the following whitespace run).  Returns the
text after the match. -/
def paraSepMatch : Str → Option Str
  | c :: rest =>
    if c = '\n' then
      match lastIdxNl (rest.takeWhile isSpaceChar) with
      | some k => some (rest.drop (k + 1))
      | none => none
    else none
  | [] => none

/-- A paragraph-separator match consumes only whitespace, so tokens
concatenate across it. -/
theorem paraSep_tokens (c : Char) (cs rest : Str)
    (h : paraSepMatch (c :: cs) = some rest) (a : Str) :
    tokens (a ++ c :: cs) = tokens a ++ tokens rest := by
  simp only [paraSepMatch] at h
  by_cases hc : c = '\n'
  case neg => rw [if_neg hc] at h; cases h
  rw [if_pos hc] at h
  rcases hk : lastIdxNl (cs.takeWhile isSpaceChar) with _ | k
  · rw [hk] at h; cases h
  · rw [hk] at h
    injection h with h
    subst h hc
    have hlt : k < (cs.takeWhile isSpaceChar).length := lastIdxNl_lt _ _ hk
    have htake : cs.take (k + 1) = (cs.takeWhile isSpaceChar).take (k + 1) := by
      rcases List.takeWhile_prefix (l := cs) (p := isSpaceChar) with ⟨t, ht⟩
      conv_lhs => rw [← ht]
      rw [List.take_append_of_le_length (by omega)]
    have hws : ∀ x ∈ cs.take (k + 1), isSpaceChar x = true := by
      intro x hx
      rw [htake] at hx
      exact List.mem_takeWhile_imp (List.take_subset _ _ hx)
    calc tokens (a ++ '\n' :: cs)
        = tokens a ++ tokens cs := tokensAux_ws_split a '\n' (by decide) [] cs
      _ = tokens a ++ tokens (cs.drop (k + 1)) := by
          conv_lhs => rw [← List.take_append_drop (k + 1) cs]
          rw [tokens_ws_front _ _ hws]

/-- Worker for `re.split(r"\n\s*\n", text)`: split the text at each
paragraph separator, scanning left to right. -/
def splitParasGo : Nat → Str → Str → List Str
  | 0, acc, rest => [acc.reverse ++ rest]
  | _ + 1, acc, [] => [acc.reverse]
  | fuel + 1, acc, c :: cs =>
    match paraSepMatch (c :: cs) with
    | some rest => acc.reverse :: splitParasGo fuel [] rest
    | none => splitParasGo fuel (c :: acc) cs

/-- `re.split(r"\n\s*\n", text)`. -/
def splitParas (text : Str) : List Str := splitParasGo text.length [] text

theorem splitParasGo_tokens (fuel : Nat) :
    ∀ (acc rest : Str),
      ((splitParasGo fuel acc rest).map tokens).flatten = tokens (acc.reverse ++ rest) := by
  induction fuel with
  | zero => intro acc rest; simp [splitParasGo]
  | succ fuel ih =>
    intro acc rest
    cases rest with
    | nil => simp [splitParasGo]
    | cons c cs =>
      rcases h : paraSepMatch (c :: cs) with _ | rest'
      · simp only [splitParasGo, h]
        rw [ih (c :: acc) cs]
        congr 1
        simp
      · simp only [splitParasGo, h, List.map_cons, List.flatten]
        rw [ih [] rest']
        rw [paraSep_tokens c cs rest' h acc.reverse]
        simp

/-- The paragraph split preserves the token sequence. -/
theorem splitParas_tokens (text : Str) :
    ((splitParas text).map tokens).flatten = tokens text := by
  unfold splitParas
  rw [splitParasGo_tokens]
  simp

/-- The class `[A-ZÀ-Ý]` of the sentence-split lookahead. -/
def isUpperSent (c : Char) : Bool :=
  ('A' ≤ c && c ≤ 'Z') || (0xC0 ≤ c.toNat && c.toNat ≤ 0xDD)

/-- Worker for `re.split(r"(?<=\.)\s+(?=[A-ZÀ-Ý])", text)`: `prev` is the
previous character (for the lookbehind); a split point is a whitespace run
right after a period and right before an uppercase letter. -/
def splitSentencesGo : Nat → Char → Str → Str → List Str
  | 0, _, acc, rest => [acc.reverse ++ rest]
  | _ + 1, _, acc, [] => [acc.reverse]
  | fuel + 1, prev, acc, c :: cs =>
    if prev = '.' && isSpaceChar c then
      match (c :: cs).dropWhile isSpaceChar with
      | d :: ds =>
        if isUpperSent d then acc.reverse :: splitSentencesGo fuel ' ' [] (d :: ds)
        else splitSentencesGo fuel c (c :: acc) cs
      | [] => splitSentencesGo fuel c (c :: acc) cs
    else splitSentencesGo fuel c (c :: acc) cs

/-- `re.split(r"(?<=\.)\s+(?=[A-ZÀ-Ý])", text)` (the initial `prev` is a
space: there is no character before position 0). -/
def splitSentences (text : Str) : List Str := splitSentencesGo text.length ' ' [] text

theorem splitSentencesGo_tokens (fuel : Nat) :
    ∀ (prev : Char) (acc rest : Str),
      ((splitSentencesGo fuel prev acc rest).map tokens).flatten
        = tokens (acc.reverse ++ rest) := by
  induction fuel with
  | zero => intro prev acc rest; simp [splitSentencesGo]
  | succ fuel ih =>
    intro prev acc rest
    cases rest with
    | nil => simp [splitSentencesGo]
    | cons c cs =>
      by_cases hp : (prev = '.' && isSpaceChar c) = true
      · rcases hd : (c :: cs).dropWhile isSpaceChar with _ | ⟨d, ds⟩
        · have hstep : splitSentencesGo (fuel + 1) prev acc (c :: cs)
              = splitSentencesGo fuel c (c :: acc) cs := by
            simp [splitSentencesGo, hp, hd]
          rw [hstep, ih c (c :: acc) cs]
          congr 1
          simp
        · by_cases hu : isUpperSent d = true
          · have hstep : splitSentencesGo (fuel + 1) prev acc (c :: cs)
                = acc.reverse :: splitSentencesGo fuel ' ' [] (d :: ds) := by
              simp [splitSentencesGo, hp, hd, hu]
            rw [hstep]
            simp only [List.map_cons, List.flatten_cons]
            rw [ih ' ' [] (d :: ds)]
            have hsep : tokens (acc.reverse ++ c :: cs) = tokens acc.reverse ++ tokens (d :: ds) := by
              have hcs : c :: cs = (c :: cs).takeWhile isSpaceChar ++ d :: ds := by
                conv_lhs => rw [← List.takeWhile_append_dropWhile (p := isSpaceChar) (l := c :: cs)]
                rw [hd]
              have hne : (c :: cs).takeWhile isSpaceChar ≠ [] := by
                have hcw : isSpaceChar c = true := by
                  rcases Bool.and_eq_true_iff.mp hp with ⟨_, h2⟩
                  exact h2
                simp [List.takeWhile, hcw]
              conv_lhs => rw [hcs, ← List.append_assoc]
              exact tokens_append_sep _ _ _ hne fun x hx => List.mem_takeWhile_imp hx
            rw [hsep]
            simp
          · have hstep : splitSentencesGo (fuel + 1) prev acc (c :: cs)
                = splitSentencesGo fuel c (c :: acc) cs := by
              simp [splitSentencesGo, hp, hd, hu]
            rw [hstep, ih c (c :: acc) cs]
            congr 1
            simp
      · have hstep : splitSentencesGo (fuel + 1) prev acc (c :: cs)
            = splitSentencesGo fuel c (c :: acc) cs := by
          simp [splitSentencesGo, hp]
        rw [hstep, ih c (c :: acc) cs]
        congr 1
        simp

/-- The sentence split preserves the token sequence. -/
theorem splitSentences_tokens (text : Str) :
    ((splitSentences text).map tokens).flatten = tokens text := by
  unfold splitSentences
  rw [splitSentencesGo_tokens]
  simp

/-- Appending `current_chunk.strip()` when it is nonempty (the flush step of
both packing loops). -/
def flushChunk (current : Str) : List Str :=
  if strip current = [] then [] else [strip current]

theorem flushChunk_tokens (current : Str) :
    ((flushChunk current).map tokens).flatten = tokens current := by
  unfold flushChunk
  by_cases h : strip current = []
  · rw [if_pos h]
    simp [tokens_of_strip_nil current h]
  · rw [if_neg h]
    simp [tokens_strip]

/-- `LLMCleaner._split_long_paragraph` packing loop: greedily pack sentences
into chunks of at most `maxChars` characters, joining with a space. -/
def splitLongGo (maxChars : Nat) : List Str → List Str → Str → List Str
  | [], chunks, current => chunks ++ flushChunk current
  | sent :: rest, chunks, current =>
    if current.length + sent.length > maxChars then
      splitLongGo maxChars rest (chunks ++ flushChunk current) sent
    else
      splitLongGo maxChars rest chunks (if current = [] then sent else current ++ ' ' :: sent)

/-- `LLMCleaner._split_long_paragraph` (src/cleaners/llm_cleaner.py:316-334). -/
def splitLongParagraph (maxChars : Nat) (text : Str) : List Str :=
  splitLongGo maxChars (splitSentences text) [] []

theorem splitLongGo_tokens (maxChars : Nat) (sents : List Str) :
    ∀ (chunks : List Str) (current : Str),
      ((splitLongGo maxChars sents chunks current).map tokens).flatten
        = (chunks.map tokens).flatten ++ tokens current ++ (sents.map tokens).flatten := by
  induction sents with
  | nil =>
    intro chunks current
    simp [splitLongGo, flushChunk_tokens]
  | cons sent rest ih =>
    intro chunks current
    by_cases h : current.length + sent.length > maxChars
    · have hstep : splitLongGo maxChars (sent :: rest) chunks current
          = splitLongGo maxChars rest (chunks ++ flushChunk current) sent := by
        simp [splitLongGo, h]
      rw [hstep, ih]
      simp [flushChunk_tokens, List.append_assoc]
    · have hstep : splitLongGo maxChars (sent :: rest) chunks current
          = splitLongGo maxChars rest chunks
              (if current = [] then sent else current ++ ' ' :: sent) := by
        simp [splitLongGo, h]
      rw [hstep, ih]
      by_cases hc : current = []
      · rw [if_pos hc]
        subst hc
        simp
      · rw [if_neg hc]
        have htok : tokens (current ++ ' ' :: sent) = tokens current ++ tokens sent :=
          tokensAux_ws_split current ' ' (by decide) [] sent
        rw [htok]
        simp

/-- The long-paragraph splitter preserves the token sequence. -/
theorem splitLongParagraph_tokens (maxChars : Nat) (text : Str) :
    ((splitLongParagraph maxChars text).map tokens).flatten = tokens text := by
  unfold splitLongParagraph
  rw [splitLongGo_tokens]
  simp [splitSentences_tokens]

/-- The paragraph separator used when packing paragraphs into a chunk. -/
def parSep : Str := ['\n', '\n']

/-- `LLMCleaner._split_into_chunks` packing loop: strip each paragraph, skip
empty ones, greedily pack into chunks of at most `maxChars` characters
(splitting over-budget paragraphs on sentence boundaries), joining packed
paragraphs with a blank line. -/
def splitChunksGo (maxChars : Nat) : List Str → List Str → Str → List Str
  | [], chunks, current => chunks ++ flushChunk current
  | para :: rest, chunks, current =>
    if strip para = [] then splitChunksGo maxChars rest chunks current
    else if current.length + (strip para).length > maxChars then
      if (strip para).length > maxChars then
        splitChunksGo maxChars rest
          (chunks ++ flushChunk current ++ splitLongParagraph maxChars (strip para))
          (if strip current = [] then current else [])
      else splitChunksGo maxChars rest (chunks ++ flushChunk current) (strip para)
    else splitChunksGo maxChars rest chunks
      (if current = [] then strip para else current ++ parSep ++ strip para)

/-- `LLMCleaner._split_into_chunks` (src/cleaners/llm_cleaner.py:283-314). -/
def splitIntoChunks (maxChars : Nat) (text : Str) : List Str :=
  splitChunksGo maxChars (splitParas text) [] []

theorem splitChunksGo_tokens (maxChars : Nat) (paras : List Str) :
    ∀ (chunks : List Str) (current : Str),
      ((splitChunksGo maxChars paras chunks current).map tokens).flatten
        = (chunks.map tokens).flatten ++ tokens current ++ (paras.map tokens).flatten := by
  induction paras with
  | nil =>
    intro chunks current
    simp [splitChunksGo, flushChunk_tokens]
  | cons para rest ih =>
    intro chunks current
    by_cases h0 : strip para = []
    · have hstep : splitChunksGo maxChars (para :: rest) chunks current
          = splitChunksGo maxChars rest chunks current := by
        simp [splitChunksGo, h0]
      rw [hstep, ih]
      simp [tokens_of_strip_nil para h0]
    · by_cases h1 : current.length + (strip para).length > maxChars
      · by_cases h2 : (strip para).length > maxChars
        · have hstep : splitChunksGo maxChars (para :: rest) chunks current
              = splitChunksGo maxChars rest
                  (chunks ++ flushChunk current ++ splitLongParagraph maxChars (strip para))
                  (if strip current = [] then current else []) := by
            simp [splitChunksGo, h0, h1, h2]
          rw [hstep, ih]
          by_cases h3 : strip current = []
          · rw [if_pos h3]
            simp [flushChunk, h3, splitLongParagraph_tokens, tokens_strip,
              tokens_of_strip_nil current h3, List.append_assoc]
          · rw [if_neg h3]
            simp [flushChunk, h3, splitLongParagraph_tokens, tokens_strip, List.append_assoc]
        · have hstep : splitChunksGo maxChars (para :: rest) chunks current
              = splitChunksGo maxChars rest (chunks ++ flushChunk current) (strip para) := by
            simp [splitChunksGo, h0, h1, h2]
          rw [hstep, ih]
          simp [flushChunk_tokens, tokens_strip, List.append_assoc]
      · have hstep : splitChunksGo maxChars (para :: rest) chunks current
            = splitChunksGo maxChars rest chunks
                (if current = [] then strip para else current ++ parSep ++ strip para) := by
          simp [splitChunksGo, h0, h1]
        rw [hstep, ih]
        by_cases hc : current = []
        · rw [if_pos hc]
          subst hc
          simp [tokens_strip]
        · rw [if_neg hc]
          have htok : tokens (current ++ parSep ++ strip para)
              = tokens current ++ tokens (strip para) :=
            tokens_append_sep current parSep (strip para) (by decide) (by decide)
          rw [htok]
          simp [tokens_strip]

/-- Join the corrected chunks back with a blank line
(the blank-line join of `corrected_chunks` in `_process_text`). -/
def joinSep (sep : Str) : List Str → Str
  | [] => []
  | [x] => x
  | x :: xs => x ++ sep ++ joinSep sep xs

theorem joinSep_tokens (sep : Str) (hne : sep ≠ [])
    (hw : ∀ c ∈ sep, isSpaceChar c = true) :
    ∀ l : List Str, tokens (joinSep sep l) = (l.map tokens).flatten := by
  intro l
  induction l with
  | nil => rfl
  | cons x xs ih =>
    cases xs with
    | nil => simp [joinSep]
    | cons y ys =>
      show tokens (x ++ sep ++ joinSep sep (y :: ys)) = _
      rw [tokens_append_sep x sep _ hne hw, ih]
      simp

/-- C7: for every input text and character budget, the chunker's output,
rejoined in order with the paragraph separator, has exactly the token
sequence of the input (whitespace-normalized equality: nothing is lost,
duplicated or reordered), and an empty input produces an empty chunk list. -/
theorem C7_chunker_roundtrip (maxChars : Nat) (text : Str) :
    tokens (joinSep parSep (splitIntoChunks maxChars text)) = tokens text ∧
    splitIntoChunks maxChars [] = [] := by
  constructor
  · rw [joinSep_tokens parSep (by decide) (by decide)]
    unfold splitIntoChunks
    rw [splitChunksGo_tokens]
    simp [splitParas_tokens]
  · rfl

/-! ## LLM correction of a chunk (`LLMCleaner._correct_chunk` / `_process_text`)

The model call (`_call_ollama`, including its retry/timeout logic) is an
external collaborator: it is passed in as an oracle `llm : Str → Option Str`
returning the final response text, or `none` when the call failed or timed
out after all retries. -/

/-- Why a chunk was rejected. -/
inductive RejectionReason where
  | llmCallFailed
  | validation (v : Verdict)
deriving DecidableEq

/-- `LLMChunkResult` (src/cleaners/llm_cleaner.py:33-42), minus the timing
and token-count observability fields. -/
structure LLMChunkResult where
  original : Str
  corrected : Str
  was_modified : Bool
  was_rejected : Bool
  rejection_reason : Option RejectionReason
deriving DecidableEq

/-- `LLMCleaner._correct_chunk` (src/cleaners/llm_cleaner.py:336-382): keep
the original on a failed call; validate otherwise; on rejection keep the
original, on acceptance return the stripped correction. -/
def correctChunk (chunk : Str) (llmResponse : Option Str) : LLMChunkResult :=
  match llmResponse with
  | none =>
    { original := chunk, corrected := chunk, was_modified := false,
      was_rejected := true, rejection_reason := some .llmCallFailed }
  | some corrected =>
    let v := validateCorrection chunk corrected
    if v.isAccepted then
      { original := chunk, corrected := strip corrected,
        was_modified := decide (strip corrected ≠ strip chunk),
        was_rejected := false, rejection_reason := none }
    else
      { original := chunk, corrected := chunk, was_modified := false,
        was_rejected := true, rejection_reason := some (.validation v) }

/-- The per-chunk step of `_process_text`
(src/cleaners/llm_cleaner.py:209-251): blank chunks pass through; otherwise
the rejected outcome contributes the original and the accepted outcome the
corrected text. -/
def processChunk (llm : Str → Option Str) (chunk : Str) : Str :=
  if strip chunk = [] then chunk
  else
    let r := correctChunk chunk (llm chunk)
    if r.was_rejected then r.original else r.corrected

/-- The `corrected_chunks` list built by `_process_text`. -/
def correctedChunks (llm : Str → Option Str) (maxChars : Nat) (text : Str) : List Str :=
  (splitIntoChunks maxChars text).map (processChunk llm)

/-- The reassembled output stream of `_process_text`. -/
def processText (llm : Str → Option Str) (maxChars : Nat) (text : Str) : Str :=
  joinSep parSep (correctedChunks llm maxChars text)

/-- Helper: a rejected outcome carries the original text in both fields. -/
theorem correctChunk_rejected (chunk : Str) (resp : Option Str)
    (h : (correctChunk chunk resp).was_rejected = true) :
    (correctChunk chunk resp).original = chunk ∧
    (correctChunk chunk resp).corrected = chunk := by
  cases resp with
  | none => exact ⟨rfl, rfl⟩
  | some corrected =>
    unfold correctChunk
    by_cases hv : (validateCorrection chunk corrected).isAccepted = true
    · exfalso
      unfold correctChunk at h
      simp only [hv, if_pos] at h
      cases h
    · simp only [hv, Bool.false_eq_true, if_neg]
      exact ⟨rfl, rfl⟩

/-! ## Rule-based cleaner (src/cleaners/rule_cleaner.py) -/

/-- The Arabic Unicode ranges of `ARABIC_PATTERN`. -/
def isArabicChar (c : Char) : Bool :=
  (0x600 ≤ c.toNat && c.toNat ≤ 0x6FF) || (0x750 ≤ c.toNat && c.toNat ≤ 0x77F) ||
  (0x8A0 ≤ c.toNat && c.toNat ≤ 0x8FF) || (0xFB50 ≤ c.toNat && c.toNat ≤ 0xFDFF) ||
  (0xFE70 ≤ c.toNat && c.toNat ≤ 0xFEFF)

/-- The class `[a-zA-ZÀ-ÿœæŒÆ]` of `LATIN_PATTERN`: the ranges `a`-`z`
(0x61-0x7A), `A`-`Z` (0x41-0x5A) and `À`-`ÿ` (0xC0-0xFF, multiplication and
division signs included), plus `œ` (0x153) and `Œ` (0x152); `æ` and `Æ` are
inside 0xC0-0xFF already. -/
def isLatinChar (c : Char) : Bool :=
  (0x61 ≤ c.toNat && c.toNat ≤ 0x7A) || (0x41 ≤ c.toNat && c.toNat ≤ 0x5A) ||
  (0xC0 ≤ c.toNat && c.toNat ≤ 0xFF) || c.toNat = 0x153 || c.toNat = 0x152

/-- Python `\w` (word characters) restricted to the scripts this pipeline
touches: ASCII alphanumerics, underscore, Latin-1 letters (`×` and `÷`
excluded), `œ`, `Œ`, and the Arabic ranges. -/
def isWordChar (c : Char) : Bool :=
  c.isAlphanum || c = '_' ||
  (0xC0 ≤ c.toNat && c.toNat ≤ 0xFF && c.toNat ≠ 0xD7 && c.toNat ≠ 0xF7) ||
  c.toNat = 0x153 || c.toNat = 0x152 || isArabicChar c

/-- `CHAR_REPLACEMENTS` (src/cleaners/rule_cleaner.py:53-65): smart quotes
and dashes to ASCII, NBSP to space, invisible marks removed — all
single-character replacements, applied per character. -/
def replaceChar (c : Char) : Option Char :=
  if c = '“' || c = '”' then some '"'
  else if c = '‘' || c = '’' then some '\x27'
  else if c = '–' || c = '—' then some '-'
  else if c = ' ' then some ' '
  else if c = '‏' || c = '‎' || c = '​' || c = '﻿' then none
  else some c

def applyReplacements (s : Str) : Str := s.filterMap replaceChar

/-- `_normalize_characters`: the replacement table, then Unicode NFC
composition.  NFC is the external `unicodedata.normalize` service, passed
in as a parameter `nfc` (it is the identity on already-composed text). -/
def normalizeCharacters (nfc : Str → Str) (s : Str) : Str := nfc (applyReplacements s)

/-- Split at every newline, keeping the (possibly empty) final segment. -/
def splitNl : Str → List Str
  | [] => [[]]
  | c :: cs =>
    if c = '\n' then [] :: splitNl cs
    else
      match splitNl cs with
      | l :: ls => (c :: l) :: ls
      | [] => [[c]]

/-- Python `str.splitlines()` restricted to `\n` terminators (the only line
terminator the pipeline's texts contain): a trailing terminator produces no
final empty line, and the empty string has no lines. -/
def splitLines (s : Str) : List Str :=
  if s = [] then []
  else if s.getLast? = some '\n' then (splitNl s).dropLast
  else splitNl s

/-- Join lines with `"\n"`. -/
def joinNl (ls : List Str) : Str := joinSep ['\n'] ls

/-- Stray-artifact pattern `\.\s*\d{1,3}\s*$` anchored at the head: a
period, whitespace, one to three digits, trailing whitespace, end.  (A
digit run of four or more can never match, by backtracking.) -/
def strayDotNum (line : Str) : Bool :=
  match line with
  | '.' :: rest =>
    let r1 := rest.dropWhile isSpaceChar
    let ds := r1.takeWhile Char.isDigit
    1 ≤ ds.length && ds.length ≤ 3 && (r1.drop ds.length).all isSpaceChar
  | _ => false

/-- Pattern `^\s*[SYMS]+\s*$` for a symbol class. -/
def straySymbols (line : Str) (syms : List Char) : Bool :=
  let r1 := line.dropWhile isSpaceChar
  let run := r1.takeWhile (syms.contains ·)
  1 ≤ run.length && (r1.drop run.length).all isSpaceChar

/-- Pattern `^\s*[A-Z]{1,2}\s*$`: one or two isolated uppercase letters. -/
def strayUpper (line : Str) : Bool :=
  let r1 := line.dropWhile isSpaceChar
  let run := r1.takeWhile fun c => 'A' ≤ c && c ≤ 'Z'
  1 ≤ run.length && run.length ≤ 2 && (r1.drop run.length).all isSpaceChar

/-- Pattern `\s+\d{1,2}-\d{1,2}\s+\d+$` anchored at the head. -/
def strayDashNums (line : Str) : Bool :=
  let w1 := line.takeWhile isSpaceChar
  if w1.length = 0 then false
  else
    let r1 := line.drop w1.length
    let d1 := r1.takeWhile Char.isDigit
    if 1 ≤ d1.length && d1.length ≤ 2 then
      match r1.drop d1.length with
      | '-' :: r2 =>
        let d2 := r2.takeWhile Char.isDigit
        if 1 ≤ d2.length && d2.length ≤ 2 then
          let r3 := r2.drop d2.length
          let w2 := r3.takeWhile isSpaceChar
          if w2.length = 0 then false
          else
            let r4 := r3.drop w2.length
            let d3 := r4.takeWhile Char.isDigit
            1 ≤ d3.length && r4.drop d3.length = []
        else false
      | _ => false
    else false

/-- `_is_noise_line` (src/cleaners/rule_cleaner.py:144-160); the argument is
the stripped line.  `NOISE_LINE_PATTERN` (`^[\s\W]{0,5}$`) is at most five
non-word characters; then the five stray-artifact patterns via `.match`;
then the no-letters short-line check. -/
def isNoiseLine (line : Str) : Bool :=
  (line.length ≤ 5 && line.all fun c => !(isWordChar c)) ||
  strayDotNum line ||
  straySymbols line ['&', '@', '#', '%', '^', '*'] ||
  strayUpper line ||
  strayDashNums line ||
  straySymbols line ['.', ',', ';', ':'] ||
  (!(line.any isArabicChar) && !(line.any isLatinChar) && line.length < 10)

/-- `_remove_noise_lines` (src/cleaners/rule_cleaner.py:121-142): keep blank
lines as empty lines, drop noise lines, keep the rest, and count removals. -/
def removeNoiseLines (text : Str) : Str × Nat :=
  let r := (splitLines text).foldl
    (fun (acc : List Str × Nat) line =>
      let st := strip line
      if st = [] then (acc.1 ++ [([] : Str)], acc.2)
      else if isNoiseLine st then (acc.1, acc.2 + 1)
      else (acc.1 ++ [line], acc.2))
    ([], 0)
  (joinNl r.1, r.2)

/-- Delete the suffix at the leftmost position where the ($-anchored)
suffix pattern `p` holds (one `re.sub` with an end-anchored pattern deletes
at most one, leftmost, match). -/
def subSuffixGo (p : Str → Bool) : Nat → Str → Str
  | 0, rest => rest
  | _, [] => []
  | fuel + 1, c :: cs => if p (c :: cs) then [] else c :: subSuffixGo p fuel cs

/-- Pattern `\s+[SYMS]+\s*$` anchored at the head. -/
def suffixWsSymbols (s : Str) (syms : List Char) : Bool :=
  let w1 := s.takeWhile isSpaceChar
  if w1.length = 0 then false
  else
    let r1 := s.drop w1.length
    let run := r1.takeWhile (syms.contains ·)
    1 ≤ run.length && (r1.drop run.length).all isSpaceChar

/-- Pattern `\s+\d{1,2}-\d{1,2}\s+\d{2,3}\s*$` anchored at the head. -/
def suffixDashNums (s : Str) : Bool :=
  let w1 := s.takeWhile isSpaceChar
  if w1.length = 0 then false
  else
    let r1 := s.drop w1.length
    let d1 := r1.takeWhile Char.isDigit
    if 1 ≤ d1.length && d1.length ≤ 2 then
      match r1.drop d1.length with
      | '-' :: r2 =>
        let d2 := r2.takeWhile Char.isDigit
        if 1 ≤ d2.length && d2.length ≤ 2 then
          let r3 := r2.drop d2.length
          let w2 := r3.takeWhile isSpaceChar
          if w2.length = 0 then false
          else
            let r4 := r3.drop w2.length
            let d3 := r4.takeWhile Char.isDigit
            (2 ≤ d3.length && d3.length ≤ 3) && (r4.drop d3.length).all isSpaceChar
        else false
      | _ => false
    else false

/-- The class `[B-DF-HJ-NP-TV-Z]`: uppercase consonant-like letters
(excluding `A`, `E`, `I`, `O`, `U`). -/
def isLoneConsonant (c : Char) : Bool :=
  ('B' ≤ c && c ≤ 'Z') && c ≠ 'E' && c ≠ 'I' && c ≠ 'O' && c ≠ 'U'

/-- `re.sub(r"\s+[B-DF-HJ-NP-TV-Z]\s+", " ", line)`: replace each
whitespace-isolated consonant (greedy whitespace on both sides) with a
single space, continuing after the match. -/
def subLoneConsGo : Nat → Str → Str
  | 0, rest => rest
  | _, [] => []
  | fuel + 1, c :: cs =>
    if isSpaceChar c then
      match (c :: cs).dropWhile isSpaceChar with
      | d :: r2 =>
        if isLoneConsonant d then
          let run2 := r2.takeWhile isSpaceChar
          if run2.length = 0 then c :: subLoneConsGo fuel cs
          else ' ' :: subLoneConsGo fuel (r2.drop run2.length)
        else c :: subLoneConsGo fuel cs
      | [] => c :: subLoneConsGo fuel cs
    else c :: subLoneConsGo fuel cs

/-- `_clean_stray_artifacts` (src/cleaners/rule_cleaner.py:162-179): four
sequential `re.sub`s on each line. -/
def cleanStrayLine (line : Str) : Str :=
  let l1 := subSuffixGo strayDotNum line.length line
  let l2 := subSuffixGo (suffixWsSymbols · ['&', '@', '#']) l1.length l1
  let l3 := subSuffixGo suffixDashNums l2.length l2
  subLoneConsGo l3.length l3

def cleanStrayArtifacts (text : Str) : Str :=
  joinNl ((splitLines text).map cleanStrayLine)

/-- `len(ARABIC_PATTERN.findall(line))`: the pattern is a single character
class, so the match count is the count of Arabic characters. -/
def countArabic (line : Str) : Nat := (line.filter isArabicChar).length

/-- `len(LATIN_PATTERN.findall(line))`. -/
def countLatin (line : Str) : Nat := (line.filter isLatinChar).length

/-- `re.sub(r"\s{2,}", " ", s)`: collapse runs of two or more whitespace
characters into one space. -/
def collapseWs2 : Nat → Str → Str
  | 0, rest => rest
  | _, [] => []
  | fuel + 1, c :: cs =>
    if isSpaceChar c then
      if 2 ≤ ((c :: cs).takeWhile isSpaceChar).length then
        ' ' :: collapseWs2 fuel ((c :: cs).drop ((c :: cs).takeWhile isSpaceChar).length)
      else c :: collapseWs2 fuel cs
    else c :: collapseWs2 fuel cs

/-- `ARABIC_PATTERN.sub("", line)` followed by whitespace collapse and
strip: the French side of a line. -/
def frenchPart (line : Str) : Str :=
  let f := line.filter fun c => !(isArabicChar c)
  strip (collapseWs2 f.length f)

/-- `LATIN_PATTERN.sub("", line)` followed by whitespace collapse and strip:
the Arabic side of a mixed line. -/
def arabicPart (line : Str) : Str :=
  let f := line.filter fun c => !(isLatinChar c)
  strip (collapseWs2 f.length f)

/-- The per-line branch of `_separate_languages`
(src/cleaners/rule_cleaner.py:193-229): the lines this line contributes to
the French and to the Arabic stream.  The float comparisons `ratio > 0.6`
and `ratio < 0.15` are embedded exactly as `5*a > 3*t` and `20*a < 3*t`. -/
def sepStep (line : Str) : List Str × List Str :=
  if strip line = [] then ([[]], [[]])
  else if countArabic line + countLatin line = 0 then ([line], [])
  else if 5 * countArabic line > 3 * (countArabic line + countLatin line) then ([], [line])
  else if 20 * countArabic line < 3 * (countArabic line + countLatin line) then
    ([frenchPart line], [])
  else
    ((if frenchPart line = [] then [] else [frenchPart line]),
     (if arabicPart line = [] then [] else [arabicPart line]))

/-- `_separate_languages` (src/cleaners/rule_cleaner.py:181-231). -/
def separateLanguages (text : Str) : Str × Str :=
  let r := (splitLines text).foldl
    (fun (acc : List Str × List Str) line =>
      (acc.1 ++ (sepStep line).1, acc.2 ++ (sepStep line).2)) ([], [])
  (joinNl r.1, joinNl r.2)

/-- Whitespace other than newline (`[^\S\n]`). -/
def isNNWs (c : Char) : Bool := isSpaceChar c && c ≠ '\n'

/-- Replace tabs with spaces. -/
def tabToSpace (s : Str) : Str := s.map fun c => if c = '\t' then ' ' else c

/-- One scan step of `re.sub(r"[^\S\n]+", " ", s)`. -/
def collapseNNWsStep (rec : Str → Str) : Str → Str
  | [] => []
  | c :: cs =>
    if isNNWs c then ' ' :: rec ((c :: cs).dropWhile isNNWs)
    else c :: rec cs

/-- `re.sub(r"[^\S\n]+", " ", s)`. -/
def collapseNNWs : Nat → Str → Str
  | 0 => fun rest => rest
  | fuel + 1 => collapseNNWsStep (collapseNNWs fuel)

/-- Drop literal spaces at both ends of a line segment. -/
def stripSpacesEnds (l : Str) : Str :=
  ((l.dropWhile (· = ' ')).reverse.dropWhile (· = ' ')).reverse

/-- `re.sub(r"^ +| +$", "", s, flags=re.MULTILINE)`. -/
def stripLineSpaces (s : Str) : Str := joinNl ((splitNl s).map stripSpacesEnds)

/-- One scan step of `re.sub(r"\n{4,}", "\n\n\n", s)`. -/
def collapseNl4Step (rec : Str → Str) : Str → Str
  | [] => []
  | c :: cs =>
    if c = '\n' then
      if 4 ≤ ((c :: cs).takeWhile (fun x => x = '\n')).length then
        '\n' :: '\n' :: '\n' ::
          rec ((c :: cs).drop ((c :: cs).takeWhile (fun x => x = '\n')).length)
      else c :: rec cs
    else c :: rec cs

/-- `re.sub(r"\n{4,}", "\n\n\n", s)`. -/
def collapseNl4 : Nat → Str → Str
  | 0 => fun rest => rest
  | fuel + 1 => collapseNl4Step (collapseNl4 fuel)

/-- `_normalize_whitespace` (src/cleaners/rule_cleaner.py:233-247). -/
def normalizeWhitespace (s : Str) : Str :=
  let s1 := tabToSpace s
  let s2 := collapseNNWs s1.length s1
  let s3 := stripLineSpaces s2
  collapseNl4 s3.length s3

/-- One scan step of `re.sub(r'\b1"\s', "1er ", text)`: `prev` is the
character before the scan position (for the word boundary). -/
def fixOneErStep (rec : Option Char → Str → Str) (prev : Option Char) : Str → Str
  | [] => []
  | '1' :: '"' :: w :: r =>
    if (match prev with | none => true | some p => !(isWordChar p)) && isSpaceChar w then
      '1' :: 'e' :: 'r' :: ' ' :: rec (some w) r
    else '1' :: rec (some '1') ('"' :: w :: r)
  | c :: cs => c :: rec (some c) cs

/-- `re.sub(r'\b1"\s', "1er ", text)`. -/
def fixOneErGo : Nat → Option Char → Str → Str
  | 0 => fun _ rest => rest
  | fuel + 1 => fixOneErStep (fixOneErGo fuel)

def isUpperAZ (c : Char) : Bool := 'A' ≤ c && c ≤ 'Z'

/-- One scan step of `re.sub(r"\.(?=[A-Z])", ". ", text)` (the lookahead is
not consumed). -/
def fixDotUpperStep (rec : Str → Str) : Str → Str
  | [] => []
  | '.' :: d :: r =>
    if isUpperAZ d then '.' :: ' ' :: rec (d :: r)
    else '.' :: rec (d :: r)
  | c :: cs => c :: rec cs

/-- `re.sub(r"\.(?=[A-Z])", ". ", text)`. -/
def fixDotUpperGo : Nat → Str → Str
  | 0 => fun rest => rest
  | fuel + 1 => fixDotUpperStep (fixDotUpperGo fuel)

/-- One scan step of `re.sub(r"\.\s*-\s*", ".- ", text)`. -/
def fixDotDashStep (rec : Str → Str) : Str → Str
  | [] => []
  | c :: cs =>
    if c = '.' then
      match cs.drop (cs.takeWhile isSpaceChar).length with
      | '-' :: r2 => '.' :: '-' :: ' ' :: rec (r2.dropWhile isSpaceChar)
      | _ => c :: rec cs
    else c :: rec cs

/-- `re.sub(r"\.\s*-\s*", ".- ", text)`. -/
def fixDotDashGo : Nat → Str → Str
  | 0 => fun rest => rest
  | fuel + 1 => fixDotDashStep (fixDotDashGo fuel)

/-- One scan step of `re.sub(r"\s+([,\.])", r"\1", text)`. -/
def fixSpacePunctStep (rec : Str → Str) : Str → Str
  | [] => []
  | c :: cs =>
    if isSpaceChar c then
      match (c :: cs).dropWhile isSpaceChar with
      | p :: r2 =>
        if p = ',' || p = '.' then p :: rec r2
        else c :: rec cs
      | [] => c :: rec cs
    else c :: rec cs

/-- `re.sub(r"\s+([,\.])", r"\1", text)`. -/
def fixSpacePunctGo : Nat → Str → Str
  | 0 => fun rest => rest
  | fuel + 1 => fixSpacePunctStep (fixSpacePunctGo fuel)

/-- The class `[a-zA-ZÀ-ÿ]`. -/
def isLetterFr (c : Char) : Bool :=
  ('a' ≤ c && c ≤ 'z') || ('A' ≤ c && c ≤ 'Z') || (0xC0 ≤ c.toNat && c.toNat ≤ 0xFF)

/-- One scan step of `re.sub(r"([,\.])(?=[a-zA-ZÀ-ÿ])", r"\1 ", text)`. -/
def fixPunctSpaceStep (rec : Str → Str) : Str → Str
  | [] => []
  | c :: cs =>
    if c = ',' || c = '.' then
      match cs with
      | d :: _ =>
        if isLetterFr d then c :: ' ' :: rec cs
        else c :: rec cs
      | [] => [c]
    else c :: rec cs

/-- `re.sub(r"([,\.])(?=[a-zA-ZÀ-ÿ])", r"\1 ", text)`. -/
def fixPunctSpaceGo : Nat → Str → Str
  | 0 => fun rest => rest
  | fuel + 1 => fixPunctSpaceStep (fixPunctSpaceGo fuel)

/-- `_fix_punctuation` (src/cleaners/rule_cleaner.py:249-266): five
sequential `re.sub`s. -/
def fixPunctuation (s : Str) : Str :=
  let s1 := fixOneErGo s.length none s
  let s2 := fixDotUpperGo s1.length s1
  let s3 := fixDotDashGo s2.length s2
  let s4 := fixSpacePunctGo s3.length s3
  fixPunctSpaceGo s4.length s4

/-- `RuleCleanerResult` (src/cleaners/rule_cleaner.py:17-25), minus the
`changes` list, which the source never appends to. -/
structure RuleCleanerResult where
  cleaned_text : Str
  french_text : Str
  arabic_text : Str
  noise_lines_removed : Nat
  noise_chars_removed : Nat
deriving DecidableEq

/-- `RuleCleaner.clean` (src/cleaners/rule_cleaner.py:67-109).  `nfc` stands
for the external `unicodedata.normalize("NFC", ...)` call; Nat subtraction
saturating at zero matches the `max(0, ...)` on the character count. -/
def clean (nfc : Str → Str) (text : Str) : RuleCleanerResult :=
  let t1 := normalizeCharacters nfc text
  let r2 := removeNoiseLines t1
  let t3 := cleanStrayArtifacts r2.1
  let sep := separateLanguages t3
  let fr2 := normalizeWhitespace sep.1
  let ar2 := normalizeWhitespace sep.2
  let fr3 := fixPunctuation fr2
  let parts := (if strip fr3 = [] then [] else [strip fr3]) ++
               (if strip ar2 = [] then [] else [strip ar2])
  let cleanedText := joinSep parSep parts
  { cleaned_text := cleanedText
    french_text := strip fr3
    arabic_text := strip ar2
    noise_lines_removed := r2.2
    noise_chars_removed := text.length - cleanedText.length }

/-- Stand-in for the external `unicodedata.normalize("NFC", ...)`: the
identity, which is exact on NFC-composed text — in particular on every
concrete (ASCII) input below. -/
def nfcId : Str → Str := id

/-! ## Character-class and membership lemmas -/

theorem space_toNat (c : Char) (h : isSpaceChar c = true) :
    c.toNat = 0x20 ∨ c.toNat = 0x9 ∨ c.toNat = 0xA ∨ c.toNat = 0xD ∨
    c.toNat = 0xB ∨ c.toNat = 0xC := by
  simp only [isSpaceChar, Bool.or_eq_true, decide_eq_true_eq] at h
  rcases h with ((((h | h) | h) | h) | h) | h <;> subst h <;> decide

theorem latin_not_arabic (c : Char) (h : isLatinChar c = true) : isArabicChar c = false := by
  simp only [isLatinChar, Bool.or_eq_true, Bool.and_eq_true, decide_eq_true_eq] at h
  rw [Bool.eq_false_iff]
  intro hcon
  simp only [isArabicChar, Bool.or_eq_true, Bool.and_eq_true, decide_eq_true_eq] at hcon
  omega

theorem arabic_not_latin (c : Char) (h : isArabicChar c = true) : isLatinChar c = false := by
  simp only [isArabicChar, Bool.or_eq_true, Bool.and_eq_true, decide_eq_true_eq] at h
  rw [Bool.eq_false_iff]
  intro hcon
  simp only [isLatinChar, Bool.or_eq_true, Bool.and_eq_true, decide_eq_true_eq] at hcon
  omega

theorem latin_not_space (c : Char) (h : isLatinChar c = true) : isSpaceChar c = false := by
  rw [Bool.eq_false_iff]
  intro hcon
  have hs := space_toNat c hcon
  simp only [isLatinChar, Bool.or_eq_true, Bool.and_eq_true, decide_eq_true_eq] at h
  omega

theorem arabic_not_space (c : Char) (h : isArabicChar c = true) : isSpaceChar c = false := by
  rw [Bool.eq_false_iff]
  intro hcon
  have hs := space_toNat c hcon
  simp only [isArabicChar, Bool.or_eq_true, Bool.and_eq_true, decide_eq_true_eq] at h
  omega

theorem mem_dropWhile_of_not_space (c : Char) (s : Str) (hc : isSpaceChar c = false)
    (h : c ∈ s) : c ∈ s.dropWhile isSpaceChar := by
  have hsplit : c ∈ s.takeWhile isSpaceChar ++ s.dropWhile isSpaceChar := by
    rw [List.takeWhile_append_dropWhile]; exact h
  rcases List.mem_append.mp hsplit with h1 | h2
  · exact absurd (List.mem_takeWhile_imp h1) (by rw [hc]; exact Bool.false_ne_true)
  · exact h2

theorem mem_strip_of_not_space (c : Char) (s : Str) (hc : isSpaceChar c = false)
    (h : c ∈ s) : c ∈ strip s := by
  unfold strip stripEnd
  apply List.mem_reverse.mpr
  apply mem_dropWhile_of_not_space c _ hc
  apply List.mem_reverse.mpr
  exact mem_dropWhile_of_not_space c _ hc h

theorem strip_ne_nil_of_mem (line : Str) (c : Char) (hmem : c ∈ line)
    (hc : isSpaceChar c = false) : strip line ≠ [] :=
  List.ne_nil_of_mem (mem_strip_of_not_space c line hc hmem)

theorem drop_takeWhile_length (p : Char → Bool) (l : Str) :
    l.drop (l.takeWhile p).length = l.dropWhile p := by
  induction l with
  | nil => rfl
  | cons x xs ih =>
    by_cases hx : p x
    · have ht : (x :: xs).takeWhile p = x :: xs.takeWhile p := by
        simp [List.takeWhile, hx]
      have hd : (x :: xs).dropWhile p = xs.dropWhile p := by
        simp [List.dropWhile, hx]
      rw [ht, hd, List.length_cons, List.drop_succ_cons, ih]
    · have ht : (x :: xs).takeWhile p = [] := by simp [List.takeWhile, hx]
      have hd : (x :: xs).dropWhile p = x :: xs := by simp [List.dropWhile, hx]
      rw [ht, hd]
      rfl

theorem mem_collapseWs2 (fuel : Nat) :
    ∀ (s : Str) (c : Char), c ∈ s → isSpaceChar c = false → c ∈ collapseWs2 fuel s := by
  induction fuel with
  | zero =>
    intro s c h _
    simpa [collapseWs2] using h
  | succ fuel ih =>
    intro s c h hc
    cases s with
    | nil => cases h
    | cons x xs =>
      by_cases hx : isSpaceChar x
      · have hcx : c ≠ x := fun he => by rw [he, hx] at hc; cases hc
        have hcxs : c ∈ xs := by
          rcases List.mem_cons.mp h with h1 | h1
          · exact absurd h1 hcx
          · exact h1
        by_cases hrun : 2 ≤ ((x :: xs).takeWhile isSpaceChar).length
        · have hstep : collapseWs2 (fuel + 1) (x :: xs)
              = ' ' :: collapseWs2 fuel
                  ((x :: xs).drop ((x :: xs).takeWhile isSpaceChar).length) := by
            show (if isSpaceChar x then _ else _) = _
            rw [if_pos hx, if_pos hrun]
          rw [hstep]
          apply List.mem_cons_of_mem
          apply ih _ c _ hc
          rw [drop_takeWhile_length]
          exact mem_dropWhile_of_not_space c _ hc h
        · have hstep : collapseWs2 (fuel + 1) (x :: xs) = x :: collapseWs2 fuel xs := by
            show (if isSpaceChar x then _ else _) = _
            rw [if_pos hx, if_neg hrun]
          rw [hstep]
          exact List.mem_cons_of_mem _ (ih xs c hcxs hc)
      · have hstep : collapseWs2 (fuel + 1) (x :: xs) = x :: collapseWs2 fuel xs := by
          show (if isSpaceChar x then _ else _) = _
          rw [if_neg hx]
        rw [hstep]
        rcases List.mem_cons.mp h with h1 | h1
        · rw [h1]; exact List.mem_cons_self _ _
        · exact List.mem_cons_of_mem _ (ih xs c h1 hc)

theorem exists_latin_of_count (line : Str) (h : 1 ≤ countLatin line) :
    ∃ c ∈ line, isLatinChar c = true := by
  have hpos : 0 < (line.filter isLatinChar).length := h
  obtain ⟨c, hc⟩ := List.exists_mem_of_length_pos hpos
  exact ⟨c, (List.mem_filter.mp hc).1, (List.mem_filter.mp hc).2⟩

theorem exists_arabic_of_count (line : Str) (h : 1 ≤ countArabic line) :
    ∃ c ∈ line, isArabicChar c = true := by
  have hpos : 0 < (line.filter isArabicChar).length := h
  obtain ⟨c, hc⟩ := List.exists_mem_of_length_pos hpos
  exact ⟨c, (List.mem_filter.mp hc).1, (List.mem_filter.mp hc).2⟩

theorem frenchPart_ne_nil (line : Str) (h : 1 ≤ countLatin line) : frenchPart line ≠ [] := by
  obtain ⟨c, hcmem, hclat⟩ := exists_latin_of_count line h
  have hns := latin_not_space c hclat
  unfold frenchPart
  apply List.ne_nil_of_mem (a := c)
  apply mem_strip_of_not_space c _ hns
  apply mem_collapseWs2 _ _ c _ hns
  apply List.mem_filter.mpr
  exact ⟨hcmem, by simp [latin_not_arabic c hclat]⟩

theorem arabicPart_ne_nil (line : Str) (h : 1 ≤ countArabic line) : arabicPart line ≠ [] := by
  obtain ⟨c, hcmem, hcar⟩ := exists_arabic_of_count line h
  have hns := arabic_not_space c hcar
  unfold arabicPart
  apply List.ne_nil_of_mem (a := c)
  apply mem_strip_of_not_space c _ hns
  apply mem_collapseWs2 _ _ c _ hns
  apply List.mem_filter.mpr
  exact ⟨hcmem, by simp [arabic_not_latin c hcar]⟩

theorem strip_ne_nil_of_script (line : Str) (h : 1 ≤ countArabic line + countLatin line) :
    strip line ≠ [] := by
  rcases Nat.lt_or_ge 0 (countArabic line) with ha | ha
  · obtain ⟨c, hcmem, hc⟩ := exists_arabic_of_count line ha
    exact strip_ne_nil_of_mem line c hcmem (arabic_not_space c hc)
  · have hl : 1 ≤ countLatin line := by omega
    obtain ⟨c, hcmem, hc⟩ := exists_latin_of_count line hl
    exact strip_ne_nil_of_mem line c hcmem (latin_not_space c hc)

/-- C5: the language separator classifies each line by the exact Arabic
ratio `a / (a + l)` with strict comparisons: above 3/5 the whole line goes
to the Arabic stream; below 3/20 the line goes to the French stream with
stray Arabic characters stripped; anything in between — the boundary values
3/5 and 3/20 included — is split into a nonempty French half and a nonempty
Arabic half; a nonblank line with no script characters at all stays in the
French stream. -/
theorem C5_language_ratio (line : Str) :
    (5 * countArabic line > 3 * (countArabic line + countLatin line) →
      sepStep line = ([], [line])) ∧
    (20 * countArabic line < 3 * (countArabic line + countLatin line) →
      sepStep line = ([frenchPart line], [])) ∧
    (1 ≤ countArabic line + countLatin line →
      ¬ 5 * countArabic line > 3 * (countArabic line + countLatin line) →
      ¬ 20 * countArabic line < 3 * (countArabic line + countLatin line) →
      sepStep line = ([frenchPart line], [arabicPart line]) ∧
        frenchPart line ≠ [] ∧ arabicPart line ≠ []) ∧
    (5 * countArabic line = 3 * (countArabic line + countLatin line) →
      1 ≤ countArabic line + countLatin line →
      sepStep line = ([frenchPart line], [arabicPart line])) ∧
    (20 * countArabic line = 3 * (countArabic line + countLatin line) →
      1 ≤ countArabic line + countLatin line →
      sepStep line = ([frenchPart line], [arabicPart line])) ∧
    (countArabic line + countLatin line = 0 → strip line ≠ [] →
      sepStep line = ([line], [])) := by
  have hmixed : 1 ≤ countArabic line + countLatin line →
      ¬ 5 * countArabic line > 3 * (countArabic line + countLatin line) →
      ¬ 20 * countArabic line < 3 * (countArabic line + countLatin line) →
      sepStep line = ([frenchPart line], [arabicPart line]) ∧
        frenchPart line ≠ [] ∧ arabicPart line ≠ [] := by
    intro ht h6 h15
    have ha : 1 ≤ countArabic line := by omega
    have hl : 1 ≤ countLatin line := by omega
    have hfr := frenchPart_ne_nil line hl
    have har := arabicPart_ne_nil line ha
    refine ⟨?_, hfr, har⟩
    unfold sepStep
    rw [if_neg (strip_ne_nil_of_script line ht), if_neg (by omega), if_neg h6, if_neg h15,
      if_neg hfr, if_neg har]
  refine ⟨?_, ?_, hmixed, ?_, ?_, ?_⟩
  · intro h
    have ha : 1 ≤ countArabic line := by omega
    have ht : 1 ≤ countArabic line + countLatin line := by omega
    unfold sepStep
    rw [if_neg (strip_ne_nil_of_script line ht), if_neg (by omega), if_pos h]
  · intro h
    have ht : 1 ≤ countArabic line + countLatin line := by omega
    unfold sepStep
    rw [if_neg (strip_ne_nil_of_script line ht), if_neg (by omega), if_neg (by omega),
      if_pos h]
  · intro h ht
    exact (hmixed ht (by omega) (by omega)).1
  · intro h ht
    exact (hmixed ht (by omega) (by omega)).1
  · intro ht hb
    unfold sepStep
    rw [if_neg hb, if_pos ht]

/-- C5 (witness): the theorem applied at concrete lines — an all-Arabic
line (ratio 1), a French line (ratio 0), a balanced mixed line (ratio 1/2),
ratio exactly 3/5, ratio exactly 3/20, and a digits-only line. -/
theorem C5_language_ratio_witness :
    sepStep "ااا".data = ([], ["ااا".data]) ∧
    sepStep "bonjour".data = ([frenchPart "bonjour".data], []) ∧
    (sepStep "اب XY".data = ([frenchPart "اب XY".data], [arabicPart "اب XY".data]) ∧
      frenchPart "اب XY".data ≠ [] ∧ arabicPart "اب XY".data ≠ []) ∧
    sepStep "اااxy".data = ([frenchPart "اااxy".data], [arabicPart "اااxy".data]) ∧
    sepStep "اااabcdefghijklmnopq".data
      = ([frenchPart "اااabcdefghijklmnopq".data], [arabicPart "اااabcdefghijklmnopq".data]) ∧
    sepStep "123".data = (["123".data], []) :=
  ⟨(C5_language_ratio _).1 (by decide),
   (C5_language_ratio _).2.1 (by decide),
   (C5_language_ratio _).2.2.1 (by decide) (by decide) (by decide),
   (C5_language_ratio _).2.2.2.1 (by decide) (by decide),
   (C5_language_ratio _).2.2.2.2.1 (by decide) (by decide),
   (C5_language_ratio _).2.2.2.2.2 (by decide) (by decide)⟩

/-- C8: the Separator evaluated at the failing input `"AB. 06\nhello"`.  The
first run strips the trailing `". 06"` artifact, leaving the line `"AB"` in
`cleaned_text`; re-running `clean` on that `cleaned_text` removes `"AB"` as
a noise line (`^\s*[A-Z]{1,2}\s*$`), so the second run removes one
additional noise line and returns a different `cleaned_text` — `clean` is
not idempotent. -/
theorem C8_second_run_changes :
    (clean nfcId "AB. 06\nhello".data).cleaned_text = "AB\nhello".data ∧
    (clean nfcId ((clean nfcId "AB. 06\nhello".data).cleaned_text)).noise_lines_removed = 1 ∧
    (clean nfcId ((clean nfcId "AB. 06\nhello".data).cleaned_text)).cleaned_text
      = "hello".data := by
  refine ⟨?_, ?_, ?_⟩ <;> decide

/-! ## C10: the French stream never contains Arabic characters -/

/-- The only characters the whitespace normalizer and the punctuation fixer
can emit that were not already in their input. -/
def fixerChars : Str := ['1', 'e', 'r', ' ', '.', '-', ',', '\n']

theorem fixerChars_not_arabic (c : Char) (h : c ∈ fixerChars) : isArabicChar c = false := by
  simp only [fixerChars, List.mem_cons, List.not_mem_nil, or_false] at h
  rcases h with h | h | h | h | h | h | h | h <;> subst h <;> decide

theorem mem_of_mem_strip (c : Char) (s : Str) (h : c ∈ strip s) : c ∈ s := by
  unfold strip stripEnd at h
  have h1 := List.mem_reverse.mp h
  have h2 := (List.dropWhile_sublist _).subset h1
  have h3 := List.mem_reverse.mp h2
  exact (List.dropWhile_sublist _).subset h3

theorem mem_joinSep (sep : Str) (l : List Str) (c : Char) (h : c ∈ joinSep sep l) :
    (∃ x ∈ l, c ∈ x) ∨ c ∈ sep := by
  induction l with
  | nil => simp [joinSep] at h
  | cons x xs ih =>
    cases xs with
    | nil => exact Or.inl ⟨x, by simp, by simpa [joinSep] using h⟩
    | cons y ys =>
      have h' : c ∈ x ++ sep ++ joinSep sep (y :: ys) := by simpa [joinSep] using h
      rcases List.mem_append.mp h' with h1 | h2
      · rcases List.mem_append.mp h1 with h3 | h4
        · exact Or.inl ⟨x, by simp, h3⟩
        · exact Or.inr h4
      · rcases ih h2 with ⟨z, hz, hcz⟩ | hs
        · exact Or.inl ⟨z, List.mem_cons_of_mem _ hz, hcz⟩
        · exact Or.inr hs

theorem splitNl_ne_nil (s : Str) : splitNl s ≠ [] := by
  cases s with
  | nil => simp [splitNl]
  | cons x xs =>
    by_cases hx : x = '\n'
    · simp [splitNl, hx]
    · rcases hsp : splitNl xs with _ | ⟨l, ls⟩
      · simp [splitNl, hx, hsp]
      · simp [splitNl, hx, hsp]

theorem mem_splitNl (s : Str) : ∀ part ∈ splitNl s, ∀ c ∈ part, c ∈ s := by
  induction s with
  | nil =>
    intro part hp c hc
    simp [splitNl] at hp
    subst hp
    cases hc
  | cons x xs ih =>
    intro part hp c hc
    by_cases hx : x = '\n'
    · rw [show splitNl (x :: xs) = [] :: splitNl xs by simp [splitNl, hx]] at hp
      rcases List.mem_cons.mp hp with h1 | h1
      · subst h1; cases hc
      · exact List.mem_cons_of_mem _ (ih part h1 c hc)
    · rcases hsp : splitNl xs with _ | ⟨l, ls⟩
      · exact absurd hsp (splitNl_ne_nil xs)
      · rw [show splitNl (x :: xs) = (x :: l) :: ls by simp [splitNl, hx, hsp]] at hp
        rcases List.mem_cons.mp hp with h1 | h1
        · subst h1
          rcases List.mem_cons.mp hc with h2 | h2
          · rw [h2]; exact List.mem_cons_self _ _
          · have hl : l ∈ splitNl xs := by rw [hsp]; exact List.mem_cons_self _ _
            exact List.mem_cons_of_mem _ (ih l hl c h2)
        · have hpart : part ∈ splitNl xs := by rw [hsp]; exact List.mem_cons_of_mem _ h1
          exact List.mem_cons_of_mem _ (ih part hpart c hc)

theorem mem_tabToSpace (s : Str) (c : Char) (h : c ∈ tabToSpace s) :
    c ∈ s ∨ c ∈ fixerChars := by
  unfold tabToSpace at h
  obtain ⟨a, ha, hfa⟩ := List.mem_map.mp h
  by_cases hat : a = '\t'
  · subst hat
    rw [if_pos rfl] at hfa
    exact Or.inr (by rw [← hfa]; decide)
  · rw [if_neg hat] at hfa
    subst hfa
    exact Or.inl ha

theorem mem_stripSpacesEnds (l : Str) (c : Char) (h : c ∈ stripSpacesEnds l) : c ∈ l := by
  unfold stripSpacesEnds at h
  have h1 := List.mem_reverse.mp h
  have h2 := (List.dropWhile_sublist _).subset h1
  have h3 := List.mem_reverse.mp h2
  exact (List.dropWhile_sublist _).subset h3

theorem mem_stripLineSpaces (s : Str) (c : Char) (h : c ∈ stripLineSpaces s) :
    c ∈ s ∨ c ∈ fixerChars := by
  unfold stripLineSpaces joinNl at h
  rcases mem_joinSep _ _ _ h with ⟨x, hx, hcx⟩ | hsep
  · obtain ⟨seg, hseg, hmap⟩ := List.mem_map.mp hx
    subst hmap
    exact Or.inl (mem_splitNl s seg hseg c (mem_stripSpacesEnds seg c hcx))
  · right
    simp only [List.mem_singleton] at hsep
    subst hsep
    decide

theorem mem_collapseNNWsStep (rec : Str → Str)
    (hrec : ∀ s c, c ∈ rec s → c ∈ s ∨ c ∈ fixerChars) :
    ∀ s c, c ∈ collapseNNWsStep rec s → c ∈ s ∨ c ∈ fixerChars := by
  intro s c h
  rw [collapseNNWsStep.eq_def] at h
  split at h
  · cases h
  · rename_i x cs
    by_cases hx : isNNWs x
    · rw [if_pos hx] at h
      rcases List.mem_cons.mp h with h1 | h1
      · exact Or.inr (by rw [h1]; decide)
      · rcases hrec _ c h1 with h2 | h2
        · exact Or.inl ((List.dropWhile_sublist _).subset h2)
        · exact Or.inr h2
    · rw [if_neg hx] at h
      rcases List.mem_cons.mp h with h1 | h1
      · exact Or.inl (by rw [h1]; exact List.mem_cons_self _ _)
      · rcases hrec _ c h1 with h2 | h2
        · exact Or.inl (List.mem_cons_of_mem _ h2)
        · exact Or.inr h2

theorem mem_collapseNNWs (fuel : Nat) :
    ∀ s c, c ∈ collapseNNWs fuel s → c ∈ s ∨ c ∈ fixerChars := by
  induction fuel with
  | zero => intro s c h; exact Or.inl h
  | succ fuel ih =>
    intro s c h
    exact mem_collapseNNWsStep _ ih s c h

theorem mem_collapseNl4Step (rec : Str → Str)
    (hrec : ∀ s c, c ∈ rec s → c ∈ s ∨ c ∈ fixerChars) :
    ∀ s c, c ∈ collapseNl4Step rec s → c ∈ s ∨ c ∈ fixerChars := by
  intro s c h
  rw [collapseNl4Step.eq_def] at h
  split at h
  · cases h
  · rename_i x cs
    by_cases hx : x = '\n'
    · rw [if_pos hx] at h
      by_cases hrun : 4 ≤ ((x :: cs).takeWhile (fun y => y = '\n')).length
      · rw [if_pos hrun] at h
        rcases List.mem_cons.mp h with h1 | h1
        · exact Or.inr (by rw [h1]; decide)
        · rcases List.mem_cons.mp h1 with h2 | h2
          · exact Or.inr (by rw [h2]; decide)
          · rcases List.mem_cons.mp h2 with h3 | h3
            · exact Or.inr (by rw [h3]; decide)
            · rcases hrec _ c h3 with h4 | h4
              · exact Or.inl (List.drop_subset _ _ h4)
              · exact Or.inr h4
      · rw [if_neg hrun] at h
        rcases List.mem_cons.mp h with h1 | h1
        · exact Or.inl (by rw [h1]; exact List.mem_cons_self _ _)
        · rcases hrec _ c h1 with h2 | h2
          · exact Or.inl (List.mem_cons_of_mem _ h2)
          · exact Or.inr h2
    · rw [if_neg hx] at h
      rcases List.mem_cons.mp h with h1 | h1
      · exact Or.inl (by rw [h1]; exact List.mem_cons_self _ _)
      · rcases hrec _ c h1 with h2 | h2
        · exact Or.inl (List.mem_cons_of_mem _ h2)
        · exact Or.inr h2

theorem mem_collapseNl4 (fuel : Nat) :
    ∀ s c, c ∈ collapseNl4 fuel s → c ∈ s ∨ c ∈ fixerChars := by
  induction fuel with
  | zero => intro s c h; exact Or.inl h
  | succ fuel ih =>
    intro s c h
    exact mem_collapseNl4Step _ ih s c h

theorem mem_normalizeWhitespace (s : Str) (c : Char) (h : c ∈ normalizeWhitespace s) :
    c ∈ s ∨ c ∈ fixerChars := by
  simp only [normalizeWhitespace] at h
  rcases mem_collapseNl4 _ _ c h with h1 | h1
  · rcases mem_stripLineSpaces _ c h1 with h2 | h2
    · rcases mem_collapseNNWs _ _ c h2 with h3 | h3
      · exact mem_tabToSpace s c h3
      · exact Or.inr h3
    · exact Or.inr h2
  · exact Or.inr h1

theorem mem_fixOneErStep (rec : Option Char → Str → Str)
    (hrec : ∀ prev s c, c ∈ rec prev s → c ∈ s ∨ c ∈ fixerChars) :
    ∀ prev s c, c ∈ fixOneErStep rec prev s → c ∈ s ∨ c ∈ fixerChars := by
  intro prev s c h
  rw [fixOneErStep.eq_def] at h
  split at h
  · cases h
  · rename_i w r
    split at h
    · rcases List.mem_cons.mp h with h1 | h1
      · exact Or.inr (by rw [h1]; decide)
      · rcases List.mem_cons.mp h1 with h2 | h2
        · exact Or.inr (by rw [h2]; decide)
        · rcases List.mem_cons.mp h2 with h3 | h3
          · exact Or.inr (by rw [h3]; decide)
          · rcases List.mem_cons.mp h3 with h4 | h4
            · exact Or.inr (by rw [h4]; decide)
            · rcases hrec _ _ c h4 with h5 | h5
              · exact Or.inl (List.mem_cons_of_mem _ (List.mem_cons_of_mem _
                  (List.mem_cons_of_mem _ h5)))
              · exact Or.inr h5
    · rcases List.mem_cons.mp h with h1 | h1
      · exact Or.inl (by rw [h1]; exact List.mem_cons_self _ _)
      · rcases hrec _ _ c h1 with h2 | h2
        · exact Or.inl (List.mem_cons_of_mem _ h2)
        · exact Or.inr h2
  · rename_i x cs hne
    rcases List.mem_cons.mp h with h1 | h1
    · exact Or.inl (by rw [h1]; exact List.mem_cons_self _ _)
    · rcases hrec _ _ c h1 with h2 | h2
      · exact Or.inl (List.mem_cons_of_mem _ h2)
      · exact Or.inr h2

theorem mem_fixOneErGo (fuel : Nat) :
    ∀ prev s c, c ∈ fixOneErGo fuel prev s → c ∈ s ∨ c ∈ fixerChars := by
  induction fuel with
  | zero => intro prev s c h; exact Or.inl h
  | succ fuel ih => intro prev s c h; exact mem_fixOneErStep _ ih prev s c h

theorem mem_fixDotUpperStep (rec : Str → Str)
    (hrec : ∀ s c, c ∈ rec s → c ∈ s ∨ c ∈ fixerChars) :
    ∀ s c, c ∈ fixDotUpperStep rec s → c ∈ s ∨ c ∈ fixerChars := by
  intro s c h
  rw [fixDotUpperStep.eq_def] at h
  split at h
  · cases h
  · rename_i d r
    split at h
    · rcases List.mem_cons.mp h with h1 | h1
      · exact Or.inr (by rw [h1]; decide)
      · rcases List.mem_cons.mp h1 with h2 | h2
        · exact Or.inr (by rw [h2]; decide)
        · rcases hrec _ c h2 with h3 | h3
          · exact Or.inl (List.mem_cons_of_mem _ h3)
          · exact Or.inr h3
    · rcases List.mem_cons.mp h with h1 | h1
      · exact Or.inr (by rw [h1]; decide)
      · rcases hrec _ c h1 with h3 | h3
        · exact Or.inl (List.mem_cons_of_mem _ h3)
        · exact Or.inr h3
  · rename_i x cs hne
    rcases List.mem_cons.mp h with h1 | h1
    · exact Or.inl (by rw [h1]; exact List.mem_cons_self _ _)
    · rcases hrec _ c h1 with h3 | h3
      · exact Or.inl (List.mem_cons_of_mem _ h3)
      · exact Or.inr h3

theorem mem_fixDotUpperGo (fuel : Nat) :
    ∀ s c, c ∈ fixDotUpperGo fuel s → c ∈ s ∨ c ∈ fixerChars := by
  induction fuel with
  | zero => intro s c h; exact Or.inl h
  | succ fuel ih => intro s c h; exact mem_fixDotUpperStep _ ih s c h

theorem mem_fixDotDashStep (rec : Str → Str)
    (hrec : ∀ s c, c ∈ rec s → c ∈ s ∨ c ∈ fixerChars) :
    ∀ s c, c ∈ fixDotDashStep rec s → c ∈ s ∨ c ∈ fixerChars := by
  intro s c h
  rw [fixDotDashStep.eq_def] at h
  split at h
  · cases h
  · rename_i x cs
    split at h
    · split at h
      · rename_i r2 heq
        rcases List.mem_cons.mp h with h1 | h1
        · exact Or.inr (by rw [h1]; decide)
        · rcases List.mem_cons.mp h1 with h2 | h2
          · exact Or.inr (by rw [h2]; decide)
          · rcases List.mem_cons.mp h2 with h3 | h3
            · exact Or.inr (by rw [h3]; decide)
            · rcases hrec _ c h3 with h4 | h4
              · have hr2 : c ∈ r2 := (List.dropWhile_sublist _).subset h4
                have hcs : c ∈ cs := by
                  apply List.drop_subset (cs.takeWhile isSpaceChar).length
                  rw [heq]
                  exact List.mem_cons_of_mem _ hr2
                exact Or.inl (List.mem_cons_of_mem _ hcs)
              · exact Or.inr h4
      · rcases List.mem_cons.mp h with h1 | h1
        · exact Or.inl (by rw [h1]; exact List.mem_cons_self _ _)
        · rcases hrec _ c h1 with h2 | h2
          · exact Or.inl (List.mem_cons_of_mem _ h2)
          · exact Or.inr h2
    · rcases List.mem_cons.mp h with h1 | h1
      · exact Or.inl (by rw [h1]; exact List.mem_cons_self _ _)
      · rcases hrec _ c h1 with h2 | h2
        · exact Or.inl (List.mem_cons_of_mem _ h2)
        · exact Or.inr h2

theorem mem_fixDotDashGo (fuel : Nat) :
    ∀ s c, c ∈ fixDotDashGo fuel s → c ∈ s ∨ c ∈ fixerChars := by
  induction fuel with
  | zero => intro s c h; exact Or.inl h
  | succ fuel ih => intro s c h; exact mem_fixDotDashStep _ ih s c h

theorem mem_fixSpacePunctStep (rec : Str → Str)
    (hrec : ∀ s c, c ∈ rec s → c ∈ s ∨ c ∈ fixerChars) :
    ∀ s c, c ∈ fixSpacePunctStep rec s → c ∈ s ∨ c ∈ fixerChars := by
  intro s c h
  rw [fixSpacePunctStep.eq_def] at h
  split at h
  · cases h
  · rename_i x cs
    split at h
    · split at h
      · rename_i p r2 heq
        split at h
        · rcases List.mem_cons.mp h with h1 | h1
          · have hp : p ∈ (x :: cs).dropWhile isSpaceChar := by
              rw [heq]; exact List.mem_cons_self _ _
            exact Or.inl (by rw [h1]; exact (List.dropWhile_sublist _).subset hp)
          · rcases hrec _ c h1 with h2 | h2
            · have hr2 : c ∈ (x :: cs).dropWhile isSpaceChar := by
                rw [heq]; exact List.mem_cons_of_mem _ h2
              exact Or.inl ((List.dropWhile_sublist _).subset hr2)
            · exact Or.inr h2
        · rcases List.mem_cons.mp h with h1 | h1
          · exact Or.inl (by rw [h1]; exact List.mem_cons_self _ _)
          · rcases hrec _ c h1 with h2 | h2
            · exact Or.inl (List.mem_cons_of_mem _ h2)
            · exact Or.inr h2
      · rcases List.mem_cons.mp h with h1 | h1
        · exact Or.inl (by rw [h1]; exact List.mem_cons_self _ _)
        · rcases hrec _ c h1 with h2 | h2
          · exact Or.inl (List.mem_cons_of_mem _ h2)
          · exact Or.inr h2
    · rcases List.mem_cons.mp h with h1 | h1
      · exact Or.inl (by rw [h1]; exact List.mem_cons_self _ _)
      · rcases hrec _ c h1 with h2 | h2
        · exact Or.inl (List.mem_cons_of_mem _ h2)
        · exact Or.inr h2

theorem mem_fixSpacePunctGo (fuel : Nat) :
    ∀ s c, c ∈ fixSpacePunctGo fuel s → c ∈ s ∨ c ∈ fixerChars := by
  induction fuel with
  | zero => intro s c h; exact Or.inl h
  | succ fuel ih => intro s c h; exact mem_fixSpacePunctStep _ ih s c h

theorem mem_fixPunctSpaceStep (rec : Str → Str)
    (hrec : ∀ s c, c ∈ rec s → c ∈ s ∨ c ∈ fixerChars) :
    ∀ s c, c ∈ fixPunctSpaceStep rec s → c ∈ s ∨ c ∈ fixerChars := by
  intro s c h
  rw [fixPunctSpaceStep.eq_def] at h
  split at h
  · cases h
  · rename_i x cs
    split at h
    · split at h
      · split at h
        · rcases List.mem_cons.mp h with h1 | h1
          · exact Or.inl (by rw [h1]; exact List.mem_cons_self _ _)
          · rcases List.mem_cons.mp h1 with h2 | h2
            · exact Or.inr (by rw [h2]; decide)
            · rcases hrec _ c h2 with h3 | h3
              · exact Or.inl (List.mem_cons_of_mem _ h3)
              · exact Or.inr h3
        · rcases List.mem_cons.mp h with h1 | h1
          · exact Or.inl (by rw [h1]; exact List.mem_cons_self _ _)
          · rcases hrec _ c h1 with h3 | h3
            · exact Or.inl (List.mem_cons_of_mem _ h3)
            · exact Or.inr h3
      · rcases List.mem_cons.mp h with h1 | h1
        · exact Or.inl (by rw [h1]; exact List.mem_cons_self _ _)
        · cases h1
    · rcases List.mem_cons.mp h with h1 | h1
      · exact Or.inl (by rw [h1]; exact List.mem_cons_self _ _)
      · rcases hrec _ c h1 with h3 | h3
        · exact Or.inl (List.mem_cons_of_mem _ h3)
        · exact Or.inr h3

theorem mem_fixPunctSpaceGo (fuel : Nat) :
    ∀ s c, c ∈ fixPunctSpaceGo fuel s → c ∈ s ∨ c ∈ fixerChars := by
  induction fuel with
  | zero => intro s c h; exact Or.inl h
  | succ fuel ih => intro s c h; exact mem_fixPunctSpaceStep _ ih s c h

theorem mem_fixPunctuation (s : Str) (c : Char) (h : c ∈ fixPunctuation s) :
    c ∈ s ∨ c ∈ fixerChars := by
  simp only [fixPunctuation] at h
  rcases mem_fixPunctSpaceGo _ _ c h with h1 | h1
  · rcases mem_fixSpacePunctGo _ _ c h1 with h2 | h2
    · rcases mem_fixDotDashGo _ _ c h2 with h3 | h3
      · rcases mem_fixDotUpperGo _ _ c h3 with h4 | h4
        · exact mem_fixOneErGo _ _ _ c h4
        · exact Or.inr h4
      · exact Or.inr h3
    · exact Or.inr h2
  · exact Or.inr h1

theorem mem_collapseWs2_src (fuel : Nat) :
    ∀ (s : Str) (c : Char), c ∈ collapseWs2 fuel s → c ∈ s ∨ c = ' ' := by
  induction fuel with
  | zero => intro s c h; exact Or.inl (by simpa [collapseWs2] using h)
  | succ fuel ih =>
    intro s c h
    cases s with
    | nil => simp [collapseWs2] at h
    | cons x xs =>
      by_cases hx : isSpaceChar x
      · by_cases hrun : 2 ≤ ((x :: xs).takeWhile isSpaceChar).length
        · have hstep : collapseWs2 (fuel + 1) (x :: xs)
              = ' ' :: collapseWs2 fuel
                  ((x :: xs).drop ((x :: xs).takeWhile isSpaceChar).length) := by
            show (if isSpaceChar x then _ else _) = _
            rw [if_pos hx, if_pos hrun]
          rw [hstep] at h
          rcases List.mem_cons.mp h with h1 | h1
          · exact Or.inr h1
          · rcases ih _ c h1 with h2 | h2
            · exact Or.inl (List.drop_subset _ _ h2)
            · exact Or.inr h2
        · have hstep : collapseWs2 (fuel + 1) (x :: xs) = x :: collapseWs2 fuel xs := by
            show (if isSpaceChar x then _ else _) = _
            rw [if_pos hx, if_neg hrun]
          rw [hstep] at h
          rcases List.mem_cons.mp h with h1 | h1
          · exact Or.inl (by rw [h1]; exact List.mem_cons_self _ _)
          · rcases ih _ c h1 with h2 | h2
            · exact Or.inl (List.mem_cons_of_mem _ h2)
            · exact Or.inr h2
      · have hstep : collapseWs2 (fuel + 1) (x :: xs) = x :: collapseWs2 fuel xs := by
          show (if isSpaceChar x then _ else _) = _
          rw [if_neg hx]
        rw [hstep] at h
        rcases List.mem_cons.mp h with h1 | h1
        · exact Or.inl (by rw [h1]; exact List.mem_cons_self _ _)
        · rcases ih _ c h1 with h2 | h2
          · exact Or.inl (List.mem_cons_of_mem _ h2)
          · exact Or.inr h2

theorem frenchPart_noArabic (line : Str) : ∀ c ∈ frenchPart line, isArabicChar c = false := by
  intro c hc
  unfold frenchPart at hc
  have h1 := mem_of_mem_strip c _ hc
  rcases mem_collapseWs2_src _ _ c h1 with h2 | h2
  · have := (List.mem_filter.mp h2).2
    simpa using this
  · subst h2; decide

theorem noArabic_of_count_zero (line : Str) (h : countArabic line = 0) :
    ∀ c ∈ line, isArabicChar c = false := by
  intro c hc
  have hnil : line.filter isArabicChar = [] := List.length_eq_zero.mp h
  have := List.filter_eq_nil_iff.mp hnil c hc
  simpa using this

theorem sepStep_french_noArabic (line : Str) :
    ∀ x ∈ (sepStep line).1, ∀ c ∈ x, isArabicChar c = false := by
  intro x hx c hc
  unfold sepStep at hx
  by_cases hb : strip line = []
  · rw [if_pos hb] at hx
    simp only [List.mem_singleton] at hx
    subst hx
    cases hc
  · rw [if_neg hb] at hx
    by_cases ht : countArabic line + countLatin line = 0
    · rw [if_pos ht] at hx
      simp only [List.mem_singleton] at hx
      rw [hx] at hc
      exact noArabic_of_count_zero line (by omega) c hc
    · rw [if_neg ht] at hx
      by_cases h6 : 5 * countArabic line > 3 * (countArabic line + countLatin line)
      · rw [if_pos h6] at hx
        simp at hx
      · rw [if_neg h6] at hx
        by_cases h15 : 20 * countArabic line < 3 * (countArabic line + countLatin line)
        · rw [if_pos h15] at hx
          simp only [List.mem_singleton] at hx
          subst hx
          exact frenchPart_noArabic line c hc
        · rw [if_neg h15] at hx
          have hx' : x ∈ (if frenchPart line = [] then ([] : List Str)
              else [frenchPart line]) := hx
          by_cases hf : frenchPart line = []
          · rw [if_pos hf] at hx'
            cases hx'
          · rw [if_neg hf] at hx'
            simp only [List.mem_singleton] at hx'
            subst hx'
            exact frenchPart_noArabic line c hc

theorem sepFold (lines : List Str) :
    ∀ (accF accA : List Str),
      lines.foldl (fun acc line => (acc.1 ++ (sepStep line).1, acc.2 ++ (sepStep line).2))
        (accF, accA)
        = (accF ++ (lines.map fun l => (sepStep l).1).flatten,
           accA ++ (lines.map fun l => (sepStep l).2).flatten) := by
  induction lines with
  | nil => intro accF accA; simp
  | cons line rest ih =>
    intro accF accA
    rw [List.foldl_cons, ih]
    simp [List.append_assoc]

theorem separateLanguages_french_noArabic (t : Str) :
    ∀ c ∈ (separateLanguages t).1, isArabicChar c = false := by
  intro c hc
  have hsep : (separateLanguages t).1
      = joinNl (((splitLines t).map fun l => (sepStep l).1).flatten) := by
    simp only [separateLanguages]
    rw [sepFold]
    simp
  rw [hsep] at hc
  unfold joinNl at hc
  rcases mem_joinSep _ _ _ hc with ⟨x, hx, hcx⟩ | hsepc
  · obtain ⟨fl, hfl, hflx⟩ := List.mem_flatten.mp hx
    obtain ⟨line, hline, hmap⟩ := List.mem_map.mp hfl
    subst hmap
    exact sepStep_french_noArabic line x hflx c hcx
  · simp only [List.mem_singleton] at hsepc
    subst hsepc
    decide

set_option maxHeartbeats 2000000 in
/-- C10: for every input (and any behavior of the external NFC pass), the
`french_text` returned by `RuleCleaner.clean` contains no code point of the
Arabic Unicode ranges — every line routed to the French stream either never
had Arabic characters or had them stripped; the symmetric property fails
for `arabic_text`: the line `"اااd"` has Arabic ratio 3/4 > 0.6 and is
moved to the Arabic stream whole, Latin `d` included. -/
theorem C10_french_no_arabic (nfc : Str → Str) (text : Str) :
    (∀ c ∈ (clean nfc text).french_text, isArabicChar c = false) ∧
    ('d' ∈ (clean nfcId "اااd".data).arabic_text ∧ isLatinChar 'd' = true) := by
  constructor
  · intro c hc
    have hfr : (clean nfc text).french_text
        = strip (fixPunctuation (normalizeWhitespace
            (separateLanguages (cleanStrayArtifacts
              (removeNoiseLines (normalizeCharacters nfc text)).1)).1)) := by
      simp only [clean]
    rw [hfr] at hc
    have h1 := mem_of_mem_strip c _ hc
    rcases mem_fixPunctuation _ c h1 with h2 | h2
    · rcases mem_normalizeWhitespace _ c h2 with h3 | h3
      · exact separateLanguages_french_noArabic _ c h3
      · exact fixerChars_not_arabic c h3
    · exact fixerChars_not_arabic c h2
  · exact ⟨by decide, by decide⟩

set_option maxHeartbeats 2000000 in
/-- C10 (witness): the theorem applied at a concrete input whose French
stream is `"bc"`: its character `b` is certified non-Arabic. -/
theorem C10_french_no_arabic_witness :
    'b' ∈ (clean nfcId "bc".data).french_text ∧ isArabicChar 'b' = false :=
  ⟨by decide, (C10_french_no_arabic nfcId "bc".data).1 'b' (by decide)⟩

/-- C6: whenever a chunk's proposed correction is rejected — by any
validation check or because the model call failed or timed out (`resp =
none`) — the outcome carries the original chunk untouched in both text
fields, and the corrected-chunk stream of `_process_text` contains exactly
the original chunk at that position. -/
theorem C6_rejection_side_effect_free (llm : Str → Option Str) (maxChars : Nat)
    (text chunk : Str) (resp : Option Str) :
    ((correctChunk chunk resp).was_rejected = true →
      (correctChunk chunk resp).original = chunk ∧
      (correctChunk chunk resp).corrected = chunk) ∧
    (∀ i (h : i < (splitIntoChunks maxChars text).length),
      (correctChunk ((splitIntoChunks maxChars text).get ⟨i, h⟩)
          (llm ((splitIntoChunks maxChars text).get ⟨i, h⟩))).was_rejected = true →
      (correctedChunks llm maxChars text)[i]?
        = some ((splitIntoChunks maxChars text).get ⟨i, h⟩)) := by
  constructor
  · exact correctChunk_rejected chunk resp
  · intro i h hrej
    unfold correctedChunks
    rw [List.getElem?_map, List.getElem?_eq_getElem h]
    have hchunk : (splitIntoChunks maxChars text)[i] = (splitIntoChunks maxChars text).get ⟨i, h⟩ := rfl
    rw [hchunk]
    simp only [Option.map_some']
    congr 1
    unfold processChunk
    by_cases hb : strip ((splitIntoChunks maxChars text).get ⟨i, h⟩) = []
    · rw [if_pos hb]
    · rw [if_neg hb]
      simp only [hrej, if_pos]
      exact (correctChunk_rejected _ _ hrej).1

/-- C6 (witness): with a model oracle that always fails, the single chunk of
`"Bonjour le monde"` is rejected and passes through unchanged. -/
theorem C6_rejection_witness :
    (correctChunk "Bonjour le monde".data none).original = "Bonjour le monde".data ∧
    (correctChunk "Bonjour le monde".data none).corrected = "Bonjour le monde".data ∧
    (correctedChunks (fun _ => none) 800 "Bonjour le monde".data)[0]?
      = some ((splitIntoChunks 800 "Bonjour le monde".data).get ⟨0, by decide⟩) :=
  ⟨((C6_rejection_side_effect_free (fun _ => none) 800 "Bonjour le monde".data
      "Bonjour le monde".data none).1 (by decide)).1,
   ((C6_rejection_side_effect_free (fun _ => none) 800 "Bonjour le monde".data
      "Bonjour le monde".data none).1 (by decide)).2,
   (C6_rejection_side_effect_free (fun _ => none) 800 "Bonjour le monde".data
      "Bonjour le monde".data none).2 0 (by decide) (by decide)⟩

/-! ## Rough splitter (src/parsers/rough_splitter.py) -/

/-- The separator class `[\.\-–:]` of `ARTICLE_PATTERN`. -/
def isArticleSep (c : Char) : Bool := c = '.' || c = '-' || c = '–' || c = ':'

/-- The tail `\s*[\.\-–:]` after the article number; returns the rest. -/
def articleTail (s : Str) : Option Str :=
  match s.dropWhile isSpaceChar with
  | c :: r => if isArticleSep c then some r else none
  | [] => none

/-- The Latin suffix words of `ARTICLE_PATTERN`'s number group. -/
def articleSuffixWords : List Str :=
  ["bis", "ter", "quater", "quinquies", "sexies", "septies", "octies",
   "novies", "decies"].map String.data

/-- The `\d+\s*(?:bis|ter|...)?` alternative followed by the tail: greedy
digits, greedy whitespace, the first suffix word that matches (at most one
can, none being a prefix of another), falling back to the suffix-free
route — the regex's backtracking order.  Greedy digit/whitespace runs need
no backtracking because the classes that follow are disjoint. -/
def articleNumAlt (s : Str) : Option Str :=
  let ds := s.takeWhile Char.isDigit
  if ds.length = 0 then none
  else
    let s1 := s.drop ds.length
    let s2 := s1.dropWhile isSpaceChar
    match articleSuffixWords.findSome? fun w => (matchLitCI w s2).bind articleTail with
    | some r => some r
    | none => articleTail s1

/-- The number group `(premier|1er|\d+\s*(?:...)?)` followed by
`\s*[\.\-–:]`, alternatives in the regex's order. -/
def articleNumber (s : Str) : Option Str :=
  match (matchLitCI "premier".data s).bind articleTail with
  | some r => some r
  | none =>
    match (matchLitCI "1er".data s).bind articleTail with
    | some r => some r
    | none => articleNumAlt s

/-- `rticle` (IGNORECASE), at least one whitespace, the number group. -/
def matchArticleCore (s : Str) : Option Str :=
  (matchLitCI "rticle".data s).bind fun s1 =>
    let sp := s1.takeWhile isSpaceChar
    if sp.length = 0 then none
    else articleNumber (s1.drop sp.length)

/-- One match attempt of `ARTICLE_PATTERN` at the head of `s`: the optional
`A`/`a`, then the core; with the leading letter consumed first (greedy),
falling back to the empty optional. -/
def matchArticleAt (s : Str) : Option Str :=
  match s with
  | c :: rest =>
    if c = 'A' || c = 'a' then
      match matchArticleCore rest with
      | some r => some r
      | none => matchArticleCore (c :: rest)
    else matchArticleCore (c :: rest)
  | [] => none

/-- `ARTICLE_PATTERN.finditer(text)`: the (start, end) spans of the
leftmost, non-overlapping matches; scanning resumes after each match. -/
def articleScanGo : Nat → Str → Nat → List (Nat × Nat)
  | 0, _, _ => []
  | _ + 1, [], _ => []
  | fuel + 1, c :: cs, pos =>
    match matchArticleAt (c :: cs) with
    | some r =>
      (pos, pos + ((c :: cs).length - r.length))
        :: articleScanGo fuel r (pos + ((c :: cs).length - r.length))
    | none => articleScanGo fuel cs (pos + 1)

def articleMatches (text : Str) : List (Nat × Nat) := articleScanGo text.length text 0

/-- The separator class `[-–:]` of the chapter/section title group. -/
def isTitleSep (c : Char) : Bool := c = '-' || c = '–' || c = ':'

/-- Index of the last non-newline character, if any. -/
def lastIdxNonNl : Str → Option Nat
  | [] => none
  | c :: cs =>
    match lastIdxNonNl cs with
    | some k => some (k + 1)
    | none => if c ≠ '\n' then some 0 else none

/-- The bare `$` (MULTILINE) at the current position: end of text or right
before a newline; consumes nothing. -/
def titleDollar (rest : Str) : Option (Option Str × Str) :=
  if rest = [] then some (none, rest)
  else if rest.head? = some '\n' then some (none, rest)
  else none

/-- The optional title group `(?:\s*[-–:]\s*(.+?))?$` at the position right
after the number: the group is tried first (greedy `?`).  With content
after the separator the lazy `.+?` captures up to the end of the line; with
only whitespace after the separator it can still capture a final
non-newline whitespace character (stripped to an empty title later);
otherwise the group is skipped and the bare `$` must hold.  Returns the raw
captured title (`none` if the group is skipped) and the rest after the
match. -/
def titleOptMatch (rest : Str) : Option (Option Str × Str) :=
  match rest.dropWhile isSpaceChar with
  | c :: r2 =>
    if isTitleSep c then
      match r2.dropWhile isSpaceChar with
      | _ :: _ =>
        let r3 := r2.dropWhile isSpaceChar
        let title := r3.takeWhile fun x => x ≠ '\n'
        some (some title, r3.drop title.length)
      | [] =>
        match lastIdxNonNl r2 with
        | some p => some (some ((r2.drop p).take 1), r2.drop (p + 1))
        | none => titleDollar rest
    else titleDollar rest
  | [] => titleDollar rest

/-- The number alternation of CHAPTER/SECTION patterns: each literal in the
regex's order, then a roman-numeral run `[IVXLC]+`, then a digit run
`\d+` — each followed by the title group.  A literal whose continuation
fails falls through to the next alternative; shortened greedy runs cannot
succeed (the following character would be of the same class, matching
neither the title separator, whitespace, nor `$`). -/
def structNumber (numLits : List Str) (s : Str) : Option (Str × Option Str × Str) :=
  match numLits.findSome? fun w =>
      (matchLitCS w s).bind fun r => (titleOptMatch r).map fun tr => (w, tr.1, tr.2) with
  | some res => some res
  | none =>
    let roman := s.takeWhile fun c => c = 'I' || c = 'V' || c = 'X' || c = 'L' || c = 'C'
    match (if roman.length = 0 then none
      else (titleOptMatch (s.drop roman.length)).map fun tr => (roman, tr.1, tr.2)) with
    | some res => some res
    | none =>
      let ds := s.takeWhile Char.isDigit
      if ds.length = 0 then none
      else (titleOptMatch (s.drop ds.length)).map fun tr => (ds, tr.1, tr.2)

/-- One match attempt of CHAPTER_PATTERN / SECTION_PATTERN at the head of
`s` (case-sensitive literal, `\s+`, number, optional title, `$`), returning
the label formatted as the source does (`f"CHAPITRE {number} - {title}"`
for a nonempty stripped title, `f"CHAPITRE {number}"` otherwise) and the
rest after the match. -/
def structMatchAt (litUpper litCap label : Str) (numLits : List Str) (s : Str) :
    Option (Str × Str) :=
  match (match matchLitCS litUpper s with
         | some r => some r
         | none => matchLitCS litCap s) with
  | none => none
  | some r1 =>
    let sp := r1.takeWhile isSpaceChar
    if sp.length = 0 then none
    else
      (structNumber numLits (r1.drop sp.length)).map fun res =>
        let title := strip (res.2.1.getD [])
        (if title = [] then label ++ ' ' :: res.1
         else label ++ ' ' :: res.1 ++ ' ' :: '-' :: ' ' :: title, res.2.2)

/-- `re.search`: the first position at which the pattern matches. -/
def detectStructGo (litU litC label : Str) (numLits : List Str) : Nat → Str → Option Str
  | 0, _ => none
  | _ + 1, [] => none
  | fuel + 1, c :: cs =>
    match structMatchAt litU litC label numLits (c :: cs) with
    | some res => some res.1
    | none => detectStructGo litU litC label numLits fuel cs

/-- `CHAPTER_PATTERN`'s literal number alternatives, in order. -/
def chapterLits : List Str := ["PREMIER".data, "PREMIÈRE".data]

/-- `SECTION_PATTERN`'s literal number alternatives, in order. -/
def sectionLits : List Str := ["PREMIÈRE".data, "PREMIERE".data, "PREMIER".data]

/-- First `CHAPTER_PATTERN` match of a block, formatted. -/
def detectChapterFirst (s : Str) : Option Str :=
  detectStructGo "CHAPITRE".data "Chapitre".data "CHAPITRE".data chapterLits s.length s

/-- First `SECTION_PATTERN` match of a block, formatted. -/
def detectSectionFirst (s : Str) : Option Str :=
  detectStructGo "SECTION".data "Section".data "SECTION".data sectionLits s.length s

/-- One context update: the first header found in the block (if any) wins
over the carried context; with no header the context carries forward
unchanged. -/
def ctxUpdate (detect : Str → Option Str) (acc : Option Str) (b : Str) : Option Str :=
  match detect b with
  | some c => some c
  | none => acc

/-- `_detect_structure` (src/parsers/rough_splitter.py:101-130): the first
chapter match and the first section match of the block independently
override the carried context. -/
def detectStructure (text : Str) (curCh curSec : Option Str) : Option Str × Option Str :=
  (ctxUpdate detectChapterFirst curCh text, ctxUpdate detectSectionFirst curSec text)

/-- `CHAPTER_PATTERN.sub("", t)` / `SECTION_PATTERN.sub("", t)`: delete
every match, scanning left to right, resuming after each match. -/
def stripStructGo (litU litC label : Str) (numLits : List Str) : Nat → Str → Str
  | 0, rest => rest
  | _ + 1, [] => []
  | fuel + 1, c :: cs =>
    match structMatchAt litU litC label numLits (c :: cs) with
    | some res => stripStructGo litU litC label numLits fuel res.2
    | none => c :: stripStructGo litU litC label numLits fuel cs

/-- `re.sub(r"\n{3,}", "\n\n", t)`. -/
def collapseNl3 : Nat → Str → Str
  | 0, rest => rest
  | _ + 1, [] => []
  | fuel + 1, c :: cs =>
    if c = '\n' && 3 ≤ ((c :: cs).takeWhile (fun x => x = '\n')).length then
      '\n' :: '\n' ::
        collapseNl3 fuel ((c :: cs).drop ((c :: cs).takeWhile (fun x => x = '\n')).length)
    else c :: collapseNl3 fuel cs

/-- `_strip_structural_headers` (src/parsers/rough_splitter.py:133-139). -/
def stripStructuralHeaders (text : Str) : Str :=
  let t1 := stripStructGo "CHAPITRE".data "Chapitre".data "CHAPITRE".data chapterLits
    text.length text
  let t2 := stripStructGo "SECTION".data "Section".data "SECTION".data sectionLits
    t1.length t1
  strip (collapseNl3 t2.length t2)

/-- `RoughArticle` (src/models/parsing.py:31-38). -/
structure RoughArticle where
  article_marker : Str
  raw_text : Str
  chapter_detected : Option Str
  section_detected : Option Str
  start_pos : Nat
  end_pos : Nat
deriving DecidableEq

/-- The slice `text[a:b]`. -/
def slice (text : Str) (a b : Nat) : Str := (text.drop a).take (b - a)

/-- The loop body of `rough_split` (src/parsers/rough_splitter.py:51-96),
recursing over the match list, threading the previous match's end and the
chapter/section context: the between-block (previous match end to this
match start) updates the context, then an in-span match overrides it for
this and all following articles. -/
def roughSplitGo (text : Str) : List (Nat × Nat) → Nat → Option Str → Option Str →
    List RoughArticle
  | [], _, _, _ => []
  | (s, e) :: rest, prevEnd, curCh, curSec =>
    let contentEnd := match rest with
      | (s2, _) :: _ => s2
      | [] => text.length
    let raw := strip (slice text s contentEnd)
    let ctx1 := detectStructure (slice text prevEnd s) curCh curSec
    let ctxIn := detectStructure raw none none
    let ch2 := match ctxIn.1 with | some c => some c | none => ctx1.1
    let sec2 := match ctxIn.2 with | some c => some c | none => ctx1.2
    { article_marker := slice text s e
      raw_text := stripStructuralHeaders raw
      chapter_detected := ch2
      section_detected := sec2
      start_pos := s
      end_pos := contentEnd } :: roughSplitGo text rest e ch2 sec2

/-- `rough_split` (src/parsers/rough_splitter.py:33-98). -/
def roughSplit (text : Str) : List RoughArticle :=
  roughSplitGo text (articleMatches text) 0 none none

/-! ## C3: spans -/

/-- The spans a match list induces: each match's start up to the next
match's start, the last one running to the end of the text. -/
def spanEnds (text : Str) : List (Nat × Nat) → List (Nat × Nat)
  | [] => []
  | (s, _) :: rest =>
    (s, match rest with
        | (s2, _) :: _ => s2
        | [] => text.length) :: spanEnds text rest

theorem roughSplitGo_spans (text : Str) (ms : List (Nat × Nat)) :
    ∀ prevEnd curCh curSec,
      ((roughSplitGo text ms prevEnd curCh curSec).map fun a => (a.start_pos, a.end_pos))
        = spanEnds text ms := by
  induction ms with
  | nil => intro prevEnd curCh curSec; rfl
  | cons m rest ih =>
    intro prevEnd curCh curSec
    obtain ⟨s, e⟩ := m
    simp only [roughSplitGo, List.map_cons, spanEnds]
    rw [ih]

theorem spanEnds_length (text : Str) (ms : List (Nat × Nat)) :
    (spanEnds text ms).length = ms.length := by
  induction ms with
  | nil => rfl
  | cons m rest ih =>
    obtain ⟨s, e⟩ := m
    simp only [spanEnds, List.length_cons, ih]

theorem spanEnds_chain (text : Str) (ms : List (Nat × Nat)) :
    ∀ i (h : i + 1 < (spanEnds text ms).length),
      (spanEnds text ms)[i].2 = (spanEnds text ms)[i + 1].1 := by
  induction ms with
  | nil => intro i h; simp [spanEnds] at h
  | cons m rest ih =>
    intro i h
    obtain ⟨s, e⟩ := m
    cases rest with
    | nil => simp [spanEnds] at h
    | cons m2 rest2 =>
      obtain ⟨s2, e2⟩ := m2
      cases i with
      | zero => rfl
      | succ i =>
        have h' : i + 1 < (spanEnds text ((s2, e2) :: rest2)).length := by
          simpa [spanEnds] using h
        have hrec := ih i h'
        simpa [spanEnds, List.getElem_cons_succ] using hrec

theorem spanEnds_fst (text : Str) (ms : List (Nat × Nat)) :
    ∀ i (h : i < (spanEnds text ms).length) (h' : i < ms.length),
      (spanEnds text ms)[i].1 = ms[i].1 := by
  induction ms with
  | nil => intro i h; simp [spanEnds] at h
  | cons m rest ih =>
    intro i h h'
    obtain ⟨s, e⟩ := m
    cases i with
    | zero => rfl
    | succ i =>
      have hh : i < (spanEnds text rest).length := by simpa [spanEnds] using h
      have hrec := ih i hh (by simpa using h')
      simpa [spanEnds, List.getElem_cons_succ] using hrec

theorem spanEnds_last_get (text : Str) (ms : List (Nat × Nat)) :
    ∀ i (h : i < (spanEnds text ms).length),
      i + 1 = (spanEnds text ms).length →
      (spanEnds text ms)[i].2 = text.length := by
  induction ms with
  | nil => intro i h; simp [spanEnds] at h
  | cons m rest ih =>
    intro i h hlast
    obtain ⟨s, e⟩ := m
    cases rest with
    | nil =>
      cases i with
      | zero => rfl
      | succ i =>
        exfalso
        simp [spanEnds] at h
    | cons m2 rest2 =>
      obtain ⟨s2, e2⟩ := m2
      cases i with
      | zero =>
        exfalso
        simp [spanEnds, spanEnds_length] at hlast
      | succ i =>
        have hh : i < (spanEnds text ((s2, e2) :: rest2)).length := by
          simpa [spanEnds] using h
        have hrec := ih i hh (by simpa [spanEnds] using hlast)
        simpa [spanEnds, List.getElem_cons_succ] using hrec

/-- C3 (amended): the splitter returns exactly one RoughArticle per
article-marker match, in order: article `i`'s span runs from its own
marker's start position to the start of marker `i+1` (the last article's
span ending at the end of the document), so consecutive spans tile
contiguously — no gaps or overlaps between them — and together cover the
document from the FIRST marker's start to the end; any text before the
first marker belongs to no span, and zero matches produce the empty list,
not an error. -/
theorem C3_splitter_spans (text : Str) :
    ((roughSplit text).map fun a => (a.start_pos, a.end_pos))
        = spanEnds text (articleMatches text) ∧
    (roughSplit text).length = (articleMatches text).length ∧
    (∀ i (h : i + 1 < (roughSplit text).length),
      (roughSplit text)[i].end_pos = (roughSplit text)[i + 1].start_pos) ∧
    (∀ i (h : i < (roughSplit text).length) (h' : i < (articleMatches text).length),
      (roughSplit text)[i].start_pos = (articleMatches text)[i].1) ∧
    (∀ i (h : i < (roughSplit text).length),
      i + 1 = (roughSplit text).length →
      (roughSplit text)[i].end_pos = text.length) ∧
    (articleMatches text = [] → roughSplit text = []) := by
  have hspans : ((roughSplit text).map fun a => (a.start_pos, a.end_pos))
      = spanEnds text (articleMatches text) :=
    roughSplitGo_spans text (articleMatches text) 0 none none
  have hlen : (roughSplit text).length = (articleMatches text).length := by
    have hc := congrArg List.length hspans
    simpa [spanEnds_length] using hc
  have hstart : ∀ i (h : i < (roughSplit text).length)
      (hb : i < (spanEnds text (articleMatches text)).length),
      (roughSplit text)[i].start_pos = (spanEnds text (articleMatches text))[i].1 ∧
      (roughSplit text)[i].end_pos = (spanEnds text (articleMatches text))[i].2 := by
    intro i h hb
    have hm : (spanEnds text (articleMatches text))[i]
        = ((roughSplit text)[i].start_pos, (roughSplit text)[i].end_pos) := by
      have he := List.getElem_of_eq hspans.symm hb
      rw [he]
      simp [List.getElem_map]
    exact ⟨by rw [hm], by rw [hm]⟩
  refine ⟨hspans, hlen, ?_, ?_, ?_, ?_⟩
  · intro i h
    have hb : i < (spanEnds text (articleMatches text)).length := by
      rw [spanEnds_length, ← hlen]; omega
    have hb1 : i + 1 < (spanEnds text (articleMatches text)).length := by
      rw [spanEnds_length, ← hlen]; omega
    rw [(hstart i (by omega) hb).2, (hstart (i + 1) h hb1).1]
    exact spanEnds_chain text (articleMatches text) i hb1
  · intro i h h'
    have hb : i < (spanEnds text (articleMatches text)).length := by
      rw [spanEnds_length]; exact h'
    rw [(hstart i h hb).1]
    exact spanEnds_fst text (articleMatches text) i hb h'
  · intro i h hlast
    have hb : i < (spanEnds text (articleMatches text)).length := by
      rw [spanEnds_length, ← hlen]; exact h
    rw [(hstart i h hb).2]
    exact spanEnds_last_get text (articleMatches text) i hb
      (by rw [spanEnds_length, ← hlen]; exact hlast)
  · intro hnil
    unfold roughSplit
    rw [hnil]
    rfl

/-- C3 counterexample: with text before the first article marker the
returned spans do NOT cover the entire input: here the sole article's span
is (2, 15) — it starts at the first marker's start, not at 0 — so the
preamble "x " is covered by no span. -/
theorem C3_counterexample :
    ((roughSplit "x Article 1.- a".data).map fun a => (a.start_pos, a.end_pos))
        = [(2, 15)] ∧
    ("x Article 1.- a".data).length = 15 ∧
    (2 : Nat) ≠ 0 :=
  ⟨by decide, by decide, by decide⟩

set_option maxHeartbeats 2000000 in
theorem C3_splitter_spans_witness :
    ((roughSplit "Article premier.- aaa Article 2.- bbb".data).get ⟨0, by decide⟩).end_pos
        = ((roughSplit "Article premier.- aaa Article 2.- bbb".data).get
            ⟨1, by decide⟩).start_pos ∧
    ((roughSplit "Article premier.- aaa Article 2.- bbb".data).get ⟨0, by decide⟩).start_pos
        = ((articleMatches "Article premier.- aaa Article 2.- bbb".data).get
            ⟨0, by decide⟩).1 ∧
    ((roughSplit "Article premier.- aaa Article 2.- bbb".data).get ⟨1, by decide⟩).end_pos
        = ("Article premier.- aaa Article 2.- bbb".data).length :=
  ⟨(C3_splitter_spans "Article premier.- aaa Article 2.- bbb".data).2.2.1 0 (by decide),
   (C3_splitter_spans "Article premier.- aaa Article 2.- bbb".data).2.2.2.1 0
     (by decide) (by decide),
   (C3_splitter_spans "Article premier.- aaa Article 2.- bbb".data).2.2.2.2.1 1
     (by decide) (by decide)⟩

/-! ## C4: chapter/section context threading -/

/-- The stripped article span scanned for in-span headers: from this
match's start to the next match's start (or the end of the text). -/
def rawBlock (text : Str) (s : Nat) (rest : List (Nat × Nat)) : Str :=
  strip (slice text s (match rest with
    | (s2, _) :: _ => s2
    | [] => text.length))

/-- The blocks `rough_split` scans for headers, in scan order: for each
match, the between-block (from the previous match's end to this match's
start), then the article's stripped span. -/
def contextBlocks (text : Str) : List (Nat × Nat) → Nat → List Str
  | [], _ => []
  | (s, e) :: rest, prevEnd =>
    slice text prevEnd s :: rawBlock text s rest :: contextBlocks text rest e

/-- The chapter context obtained by folding the context updates over a
block list, starting from a carried context. -/
def chapterContext (cur : Option Str) (blocks : List Str) : Option Str :=
  blocks.foldl (ctxUpdate detectChapterFirst) cur

/-- The section context obtained by folding the context updates over a
block list. -/
def sectionContext (cur : Option Str) (blocks : List Str) : Option Str :=
  blocks.foldl (ctxUpdate detectSectionFirst) cur

theorem ctxUpdate_none (detect : Str → Option Str) (cur : Option Str) (raw : Str) :
    (match ctxUpdate detect none raw with
      | some c => some c
      | none => cur) = ctxUpdate detect cur raw := by
  rcases h : detect raw with _ | c <;> simp [ctxUpdate, h]

/-- The chapter context `rough_split` assigns at a match: the in-span
match if any, otherwise the between-block update of the carried context. -/
def chCons (text : Str) (s prevEnd : Nat) (rest : List (Nat × Nat)) (curCh : Option Str) :
    Option Str :=
  match ctxUpdate detectChapterFirst none (rawBlock text s rest) with
  | some c => some c
  | none => ctxUpdate detectChapterFirst curCh (slice text prevEnd s)

/-- The section context `rough_split` assigns at a match. -/
def secCons (text : Str) (s prevEnd : Nat) (rest : List (Nat × Nat)) (curSec : Option Str) :
    Option Str :=
  match ctxUpdate detectSectionFirst none (rawBlock text s rest) with
  | some c => some c
  | none => ctxUpdate detectSectionFirst curSec (slice text prevEnd s)

theorem roughSplitGo_cons (text : Str) (s e prevEnd : Nat) (rest : List (Nat × Nat))
    (curCh curSec : Option Str) :
    roughSplitGo text ((s, e) :: rest) prevEnd curCh curSec
      = { article_marker := slice text s e
          raw_text := stripStructuralHeaders (rawBlock text s rest)
          chapter_detected := chCons text s prevEnd rest curCh
          section_detected := secCons text s prevEnd rest curSec
          start_pos := s
          end_pos := match rest with
            | (s2, _) :: _ => s2
            | [] => text.length } ::
        roughSplitGo text rest e (chCons text s prevEnd rest curCh)
          (secCons text s prevEnd rest curSec) := rfl

theorem chCons_eq (text : Str) (s prevEnd : Nat) (rest : List (Nat × Nat))
    (curCh : Option Str) :
    chCons text s prevEnd rest curCh
      = ctxUpdate detectChapterFirst
          (ctxUpdate detectChapterFirst curCh (slice text prevEnd s))
          (rawBlock text s rest) :=
  ctxUpdate_none detectChapterFirst (ctxUpdate detectChapterFirst curCh (slice text prevEnd s))
    (rawBlock text s rest)

theorem secCons_eq (text : Str) (s prevEnd : Nat) (rest : List (Nat × Nat))
    (curSec : Option Str) :
    secCons text s prevEnd rest curSec
      = ctxUpdate detectSectionFirst
          (ctxUpdate detectSectionFirst curSec (slice text prevEnd s))
          (rawBlock text s rest) :=
  ctxUpdate_none detectSectionFirst (ctxUpdate detectSectionFirst curSec (slice text prevEnd s))
    (rawBlock text s rest)

theorem chapterContext_cons2 (cur : Option Str) (b r : Str) (t : List Str) :
    chapterContext cur (b :: r :: t)
      = chapterContext (ctxUpdate detectChapterFirst (ctxUpdate detectChapterFirst cur b) r)
          t := rfl

theorem sectionContext_cons2 (cur : Option Str) (b r : Str) (t : List Str) :
    sectionContext cur (b :: r :: t)
      = sectionContext (ctxUpdate detectSectionFirst (ctxUpdate detectSectionFirst cur b) r)
          t := rfl

theorem roughSplitGo_context (text : Str) (ms : List (Nat × Nat)) :
    ∀ prevEnd curCh curSec i (h : i < (roughSplitGo text ms prevEnd curCh curSec).length),
      (roughSplitGo text ms prevEnd curCh curSec)[i].chapter_detected
          = chapterContext curCh ((contextBlocks text ms prevEnd).take (2 * i + 2)) ∧
      (roughSplitGo text ms prevEnd curCh curSec)[i].section_detected
          = sectionContext curSec ((contextBlocks text ms prevEnd).take (2 * i + 2)) := by
  induction ms with
  | nil => intro prevEnd curCh curSec i h; simp [roughSplitGo] at h
  | cons m rest ih =>
    intro prevEnd curCh curSec i h
    obtain ⟨s, e⟩ := m
    have hc := roughSplitGo_cons text s e prevEnd rest curCh curSec
    have hg := List.getElem_of_eq hc h
    rw [hg]
    cases i with
    | zero =>
      rw [List.getElem_cons_zero]
      constructor
      · show chCons text s prevEnd rest curCh = _
        rw [chCons_eq]
        rfl
      · show secCons text s prevEnd rest curSec = _
        rw [secCons_eq]
        rfl
    | succ i =>
      have hlen := congrArg List.length hc
      have ht : i < (roughSplitGo text rest e (chCons text s prevEnd rest curCh)
          (secCons text s prevEnd rest curSec)).length := by
        rw [hc] at h
        simpa using h
      have hrec := ih e (chCons text s prevEnd rest curCh)
        (secCons text s prevEnd rest curSec) i ht
      have harith : 2 * (i + 1) + 2 = (2 * i + 2) + 1 + 1 := by ring
      simp only [List.getElem_cons_succ]
      constructor
      · rw [harith]
        show _ = chapterContext curCh
          ((slice text prevEnd s :: rawBlock text s rest :: contextBlocks text rest e).take
            ((2 * i + 2) + 1 + 1))
        rw [List.take_succ_cons, List.take_succ_cons, chapterContext_cons2, ← chCons_eq]
        exact hrec.1
      · rw [harith]
        show _ = sectionContext curSec
          ((slice text prevEnd s :: rawBlock text s rest :: contextBlocks text rest e).take
            ((2 * i + 2) + 1 + 1))
        rw [List.take_succ_cons, List.take_succ_cons, sectionContext_cons2, ← secCons_eq]
        exact hrec.2

/-- C4 (amended): each article's detected chapter and section equal the
fold of per-block context updates over the scanned blocks in order — for
each match up to this one, the between-block (previous match's end to this
match's start) followed by the article's own stripped span — where one
block's update keeps the FIRST header the block contains (`re.search`), not
the most recently seen one, a block containing no header leaves the
carried context unchanged, and a later block's header (including an
in-span one) overrides the context carried from earlier blocks for this
and all following articles. -/
theorem C4_context_threading (text : Str) :
    ∀ i (h : i < (roughSplit text).length),
      (roughSplit text)[i].chapter_detected
          = chapterContext none ((contextBlocks text (articleMatches text) 0).take (2 * i + 2)) ∧
      (roughSplit text)[i].section_detected
          = sectionContext none ((contextBlocks text (articleMatches text) 0).take (2 * i + 2)) :=
  fun i h => roughSplitGo_context text (articleMatches text) 0 none none i h

/-- Follows the claim's words, not the source: the MOST RECENTLY seen
chapter header of a block (its last match) wins, scanning left to right
and keeping the latest match's label. -/
def detectStructLastGo (litU litC label : Str) (numLits : List Str) :
    Option Str → Nat → Str → Option Str
  | acc, 0, _ => acc
  | acc, _ + 1, [] => acc
  | acc, fuel + 1, c :: cs =>
    match structMatchAt litU litC label numLits (c :: cs) with
    | some res => detectStructLastGo litU litC label numLits (some res.1) fuel res.2
    | none => detectStructLastGo litU litC label numLits acc fuel cs

/-- Follows the claim's words, not the source: the last chapter header of
the block. -/
def detectChapterLast (s : Str) : Option Str :=
  detectStructLastGo "CHAPITRE".data "Chapitre".data "CHAPITRE".data chapterLits none
    s.length s

set_option maxHeartbeats 2000000 in
/-- C4 counterexample: in a block containing two chapter headers before the
only article, `rough_split` keeps the FIRST one (`re.search` returns the
leftmost match), while the claim's "most recently seen header of each kind
winning when several occur in one block" would keep the second. -/
theorem C4_counterexample :
    ((roughSplit "CHAPITRE I\nCHAPITRE II\nArticle 1. x".data).map
        fun a => a.chapter_detected) = [some "CHAPITRE I".data] ∧
    detectChapterLast "CHAPITRE I\nCHAPITRE II\n".data = some "CHAPITRE II".data ∧
    (some "CHAPITRE I".data : Option Str) ≠ some "CHAPITRE II".data := by
  refine ⟨by decide, by decide, by decide⟩

set_option maxHeartbeats 2000000 in
theorem C4_context_threading_witness :
    ((roughSplit "CHAPITRE I\nArticle 1.- x".data).get ⟨0, by decide⟩).chapter_detected
        = chapterContext none
            ((contextBlocks "CHAPITRE I\nArticle 1.- x".data
              (articleMatches "CHAPITRE I\nArticle 1.- x".data) 0).take 2) ∧
    ((roughSplit "CHAPITRE I\nArticle 1.- x".data).get ⟨0, by decide⟩).section_detected
        = sectionContext none
            ((contextBlocks "CHAPITRE I\nArticle 1.- x".data
              (articleMatches "CHAPITRE I\nArticle 1.- x".data) 0).take 2) :=
  ⟨(C4_context_threading "CHAPITRE I\nArticle 1.- x".data 0 (by decide)).1,
   (C4_context_threading "CHAPITRE I\nArticle 1.- x".data 0 (by decide)).2⟩

/-! ## C9: article ordering in the assembler -/

/-- `re.match(r"(\d+)", s)`: the leading digit run of `s`. -/
def leadingDigits (s : Str) : Str := s.takeWhile Char.isDigit

/-- `int(...)` on a digit string. -/
def digitsVal (s : Str) : Nat := s.foldl (fun n c => n * 10 + (c.toNat - 48)) 0

/-- `_build_article`'s article_order computation
(src/parsers/assembler.py:56-63): the sequential order, unless the declared
article number is truthy (present and non-empty) and `re.match(r"(\d+)")`
succeeds on it, in which case the integer value of its leading digits. -/
def articleOrder (article_number : Option Str) (order : Nat) : Nat :=
  match article_number with
  | none => order
  | some s =>
    if s = [] then order
    else if leadingDigits s = [] then order
    else digitsVal (leadingDigits s)

/-- The `assemble_articles` loop (src/parsers/assembler.py:22-30) restricted
to the (article_number, article_order) pair of each built article: each
extraction is modelled as `none` (LLM extraction failed) or
`some article_number`; a failed extraction is skipped but still consumes a
sequential position. -/
def assembleOrders : Nat → List (Option (Option Str)) → List (Option Str × Nat)
  | _, [] => []
  | idx, none :: rest => assembleOrders (idx + 1) rest
  | idx, some num :: rest =>
    (num, articleOrder num (idx + 1)) :: assembleOrders (idx + 1) rest

/-- The (article_number, article_order) pairs `assemble_articles` produces
from a document's extraction list. -/
def assembleArticleOrders (exts : List (Option (Option Str))) : List (Option Str × Nat) :=
  assembleOrders 0 exts

theorem assembleOrders_eq (exts : List (Option (Option Str))) :
    ∀ idx, assembleOrders idx exts
      = (exts.enumFrom idx).filterMap
          (fun p => p.2.map fun num => (num, articleOrder num (p.1 + 1))) := by
  induction exts with
  | nil => intro idx; rfl
  | cons x rest ih =>
    intro idx
    cases x with
    | none => simp [assembleOrders, List.enumFrom, List.filterMap_cons, ih]
    | some num => simp [assembleOrders, List.enumFrom, List.filterMap_cons, ih]

/-- C9 (amended): the assembler assigns each surviving article the pair of
its declared number and its order, where the order is the integer value of
the number's leading digits whenever the declared number is present,
non-empty, and BEGINS with a digit (so "3bis" gets order 3, not its
sequential position), and falls back to the article's 1-based sequential
position among the document's extractions (failed extractions still
consuming a position) when the number is absent, empty, or starts with a
non-digit character such as "premier". -/
theorem C9_article_order (exts : List (Option (Option Str))) :
    assembleArticleOrders exts
        = (exts.enumFrom 0).filterMap
            (fun p => p.2.map fun num => (num, articleOrder num (p.1 + 1))) ∧
    (∀ order, articleOrder none order = order) ∧
    (∀ order, articleOrder (some []) order = order) ∧
    (∀ s order, leadingDigits s ≠ [] →
      articleOrder (some s) order = digitsVal (leadingDigits s)) ∧
    (∀ s order, leadingDigits s = [] → articleOrder (some s) order = order) := by
  refine ⟨assembleOrders_eq exts 0, fun order => rfl, fun order => rfl, ?_, ?_⟩
  · intro s order h
    have hs : s ≠ [] := by
      intro he
      subst he
      exact h rfl
    simp [articleOrder, hs, h]
  · intro s order h
    by_cases hs : s = []
    · subst hs; rfl
    · simp [articleOrder, hs, h]

/-- C9 counterexample: the declared number "3bis" is NOT treated as
non-numeric — the assembler orders it by its leading digits (3), not by
its sequential position (1), contradicting the claim's "3bis" example. -/
theorem C9_counterexample :
    assembleArticleOrders [some (some "3bis".data)] = [(some "3bis".data, 3)] ∧
    (3 : Nat) ≠ 1 :=
  ⟨rfl, by decide⟩

theorem C9_article_order_witness :
    leadingDigits "12ter".data ≠ [] ∧
    articleOrder (some "12ter".data) 5 = digitsVal (leadingDigits "12ter".data) ∧
    leadingDigits "premier".data = [] ∧
    articleOrder (some "premier".data) 5 = 5 ∧
    assembleArticleOrders [none, some (some "premier".data)]
        = (([none, some (some "premier".data)] :
              List (Option (Option Str))).enumFrom 0).filterMap
            (fun p => p.2.map fun num => (num, articleOrder num (p.1 + 1))) :=
  ⟨by decide, (C9_article_order []).2.2.2.1 "12ter".data 5 (by decide),
   by decide, (C9_article_order []).2.2.2.2 "premier".data 5 (by decide),
   (C9_article_order [none, some (some "premier".data)]).1⟩

end LegalPipeline
